import Mathlib

/-!
# StringSimSynthesizer: the mass-spring string of `Source/MainComponent.h`

A shallow embedding of `lerp`, `Node` and `String<NUMNODES>` and a verification
of their specification.

Modelling decisions.

* `float` is modelled by `ℚ`, and the arithmetic the code writes down is evaluated
  exactly, with one exception.  Rounding changes a result of `pluck` by more than a last
  bit in one place only, the start index `int(float(NUMNODES - 1) * position)`, where it
  can move the truncation to the next integer.  There the rounding is an argument
  `toFloat` of `pluck`: `roundBinary32` is the rounding of the program (binary32, to
  nearest, ties to even), `noRounding` is the exact reading of the same expression.
  Statements about the program as it runs use `roundBinary32`; statements that are about
  exact arithmetic use `noRounding`.  NaN and infinities are not modelled.
* `int` is modelled by `Int` without wrap-around: in every run considered below the `int`
  values stay far below `2^31` in absolute value.
* The node array is a `List Node`; the template parameter `NUMNODES` is an
  explicit argument and a well-formed state has `nodes.length = NUMNODES`.
* The methods mutate the array in place, in the order of the source; here they
  pass the array along explicitly.  An array access outside `0..length-1`, a
  division by zero in `pluck` and a failed `assert` stop the run with a `Fault`
  that carries the array as it was at that moment.
* `Node::mass` (`0.1f`) and `String::spring_constant` (`100000.f`) are constants
  of the source; the operations take them as arguments `mass` and
  `spring_constant`, and the constants are `Node.mass` and
  `String.spring_constant`.
-/

namespace StringSim

/-! ## Data model -/

/-- The ways a run can stop early. -/
inductive Fault where
  | assertion
  | outOfRange
  | divisionByZero
deriving DecidableEq, Repr

/-- The `struct Node`: both fields are initialised to `0.f`. -/
structure Node where
  velocity : ℚ := 0
  lateral_displacement : ℚ := 0
deriving DecidableEq, Repr

/-- A run either returns a value or stops with a fault and the array at that moment. -/
abbrev Exec (α : Type) := Except (Fault × List Node) α

/-- The constant `static constexpr float mass = 0.1f;` of `Node`. -/
def Node.mass : ℚ := 1 / 10

/-- The member `const float spring_constant = 100000.f;` of `String`. -/
def String.spring_constant : ℚ := 100000

/-- The function `inline float lerp(float a, float b, float t)`. -/
def lerp (a b t : ℚ) : ℚ := a + t * (b - a)

/-- The method `Node::integrateSpringForce`: only `velocity` is written. -/
def Node.integrateSpringForce (mass : ℚ) (n : Node)
    (spring_constant spring_other_end dt : ℚ) : Node :=
  let x := spring_other_end - n.lateral_displacement
  let F := x * spring_constant
  let a := F / mass
  { n with velocity := n.velocity + a * dt }

/-- The method `Node::updateDisplacement`: only `lateral_displacement` is written. -/
def Node.updateDisplacement (n : Node) (dt : ℚ) : Node :=
  { n with lateral_displacement := n.lateral_displacement + n.velocity * dt }

/-! ## Array accesses and loops -/

/-- Read `nodes[i]`. -/
def readNode (nodes : List Node) (i : Int) : Exec Node :=
  if 0 ≤ i then
    match nodes[i.toNat]? with
    | some n => .ok n
    | none => .error (Fault.outOfRange, nodes)
  else .error (Fault.outOfRange, nodes)

/-- Overwrite `nodes[i]`. -/
def writeNode (nodes : List Node) (i : Int) (n : Node) : Exec (List Node) :=
  if 0 ≤ i ∧ i.toNat < nodes.length then .ok (nodes.set i.toNat n)
  else .error (Fault.outOfRange, nodes)

/-- Read `nodes[i].lateral_displacement`. -/
def readDisplacement (nodes : List Node) (i : Int) : Exec ℚ := do
  let n ← readNode nodes i
  pure n.lateral_displacement

/-- The statement `nodes[i].integrateSpringForce(spring_constant, spring_other_end, dt);`. -/
def integrateAt (mass spring_constant : ℚ) (nodes : List Node) (i : Int)
    (spring_other_end dt : ℚ) : Exec (List Node) := do
  let n ← readNode nodes i
  writeNode nodes i (n.integrateSpringForce mass spring_constant spring_other_end dt)

/-- The statement `nodes[i].updateDisplacement(dt);`. -/
def updateAt (nodes : List Node) (i : Int) (dt : ℚ) : Exec (List Node) := do
  let n ← readNode nodes i
  writeNode nodes i (n.updateDisplacement dt)

/-- The statement `nodes[i].lateral_displacement = x;`. -/
def setDisplacement (nodes : List Node) (i : Int) (x : ℚ) : Exec (List Node) := do
  let n ← readNode nodes i
  writeNode nodes i { n with lateral_displacement := x }

/-- The statement `nodes[i].velocity = x;`. -/
def setVelocity (nodes : List Node) (i : Int) (x : ℚ) : Exec (List Node) := do
  let n ← readNode nodes i
  writeNode nodes i { n with velocity := x }

/-- A quotient `a / b` of `pluck`.  A `float` division by zero does not stop the program; the
model stops there, so that a run that returns has not divided by zero. -/
def checkedDiv (nodes : List Node) (a b : ℚ) : Exec ℚ :=
  if b = 0 then .error (Fault.divisionByZero, nodes) else .ok (a / b)

/-- Run `body i` for `count` consecutive values of `i`, starting at `i`. -/
def forLoop (body : Int → List Node → Exec (List Node)) :
    Nat → Int → List Node → Exec (List Node)
  | 0, _, nodes => .ok nodes
  | count + 1, i, nodes => body i nodes >>= forLoop body count (i + 1)

/-- The loop `for (int i = lo; i < hi; ++i) body`: it runs `hi - lo` times when `lo < hi`
and not at all otherwise. -/
def forRange (lo hi : Int) (body : Int → List Node → Exec (List Node))
    (nodes : List Node) : Exec (List Node) :=
  forLoop body (hi - lo).toNat lo nodes

/-- The conversion `int(x)` of a `float`: truncation toward zero. -/
def truncToInt (x : ℚ) : Int := if 0 ≤ x then ⌊x⌋ else ⌈x⌉

/-! ## Rounding to `float` -/

/-- Rounding of a rational to the nearest integer, ties to the even one. -/
def roundHalfEven (q : ℚ) : Int :=
  if q - ⌊q⌋ < 1 / 2 then ⌊q⌋
  else if 1 / 2 < q - ⌊q⌋ then ⌊q⌋ + 1
  else if ⌊q⌋ % 2 = 0 then ⌊q⌋ else ⌊q⌋ + 1

/-- The spacing of the binary32 values around `x`: `2 ^ (e - 23)` for
`2 ^ e ≤ |x| < 2 ^ (e + 1)`, and `2 ^ (-149)` in the subnormal range. -/
def binary32Ulp (x : ℚ) : ℚ := (2 : ℚ) ^ max (Int.log 2 |x| - 23) (-149)

/-- The rounding of a `float` operation: the nearest binary32 value, ties to even.  Overflow
to infinity (magnitudes from `2 ^ 128` on) is not modelled. -/
def roundBinary32 (x : ℚ) : ℚ := (roundHalfEven (x / binary32Ulp x) : ℚ) * binary32Ulp x

/-- Exact arithmetic: no rounding at all. -/
def noRounding (x : ℚ) : ℚ := x

/-! ## `String<NUMNODES>` -/

/-- The method `String::step`. -/
def String.step (NUMNODES : Nat) (mass spring_constant : ℚ) (dt : ℚ)
    (nodes : List Node) : Exec (List Node) := do
  let N : Int := NUMNODES
  let nodes ← integrateAt mass spring_constant nodes 0 0 dt
  let nodes ←
    if N > 1 then do
      let d ← readDisplacement nodes 1
      integrateAt mass spring_constant nodes 0 d dt
    else pure nodes
  let nodes ← forRange 1 (N - 1) (fun i nodes => do
      let dl ← readDisplacement nodes (i - 1)
      let nodes ← integrateAt mass spring_constant nodes i dl dt
      let dr ← readDisplacement nodes (i + 1)
      integrateAt mass spring_constant nodes i dr dt) nodes
  let nodes ←
    if N > 1 then do
      let d ← readDisplacement nodes (N - 2)
      integrateAt mass spring_constant nodes (N - 1) d dt
    else pure nodes
  let nodes ← integrateAt mass spring_constant nodes (N - 1) 0 dt
  forRange 0 N (fun i nodes => updateAt nodes i dt) nodes

/-- The method `String::sample`: the value returned, and the array after the call. -/
def String.sample (NUMNODES : Nat) (nodes : List Node) : Exec (ℚ × List Node) := do
  let n ← readNode nodes (Int.tdiv (NUMNODES : Int) 2)
  pure (n.lateral_displacement, nodes)

/-- The expression `int(float(NUMNODES - 1) * position)` of `pluck`: the conversion of
`NUMNODES - 1` and the product are each rounded by `toFloat`, the result is truncated. -/
def String.start_index (toFloat : ℚ → ℚ) (NUMNODES : Nat) (position : ℚ) : Int :=
  truncToInt (toFloat (toFloat ((((NUMNODES : Int) - 1 : Int)) : ℚ) * position))

/-- The method `String::pluck`, for the rounding `toFloat` of the start index. -/
def String.pluck (toFloat : ℚ → ℚ) (NUMNODES : Nat) (position strength : ℚ)
    (nodes : List Node) : Exec (List Node) :=
  if ¬ (position ≥ 0 ∧ position ≤ 1) then .error (Fault.assertion, nodes)
  else do
    let N : Int := NUMNODES
    let start_index : Int := String.start_index toFloat NUMNODES position
    let nodes ← forRange start_index N (fun i nodes => do
        let distance_to_end ←
          checkedDiv nodes ((N - i : Int) : ℚ) ((N - start_index : Int) : ℚ)
        let nodes ← setDisplacement nodes i (lerp 0 strength distance_to_end)
        setVelocity nodes i 0) nodes
    forRange 0 start_index (fun i nodes => do
        let distance_to_start ←
          checkedDiv nodes ((start_index : Int) : ℚ) ((start_index - i : Int) : ℚ)
        let nodes ← setDisplacement nodes i (lerp 0 strength distance_to_start)
        setVelocity nodes i 0) nodes

/-- A freshly constructed `String<NUMNODES>`: every node is `Node{}`. -/
def String.fresh (NUMNODES : Nat) : List Node := List.replicate NUMNODES {}

/-- The array after `n` successive calls `step(dt)`. -/
def String.stepN (NUMNODES : Nat) (mass spring_constant : ℚ) (dt : ℚ) :
    Nat → List Node → Exec (List Node)
  | 0, nodes => .ok nodes
  | n + 1, nodes =>
    String.step NUMNODES mass spring_constant dt nodes >>=
      String.stepN NUMNODES mass spring_constant dt n

/-- The values returned by `count` successive calls `sample()`, and the array after them. -/
def String.sampleN (NUMNODES : Nat) : Nat → List Node → Exec (List ℚ × List Node)
  | 0, nodes => .ok ([], nodes)
  | count + 1, nodes => do
    let (x, nodes) ← String.sample NUMNODES nodes
    let (xs, nodes) ← String.sampleN NUMNODES count nodes
    pure (x :: xs, nodes)

/-! ## Reference definitions, following the specification, and tables -/

/-- The pre-step displacement `d[j]` with the two virtual anchors: `d[-1] = d[N] = 0`. -/
def anchoredDisplacement (N : Nat) (nodes : List Node) (j : Int) : ℚ :=
  if 0 ≤ j ∧ j < N then (nodes.getD j.toNat {}).lateral_displacement else 0

/-- The velocity the two-pass reference gives node `i`:
`v[i] + (springConstant / mass) * dt * (d[i-1] + d[i+1] - 2 * d[i])`. -/
def referenceVelocity (N : Nat) (mass spring_constant dt : ℚ) (nodes : List Node)
    (i : Nat) : ℚ :=
  (nodes.getD i {}).velocity +
    spring_constant / mass * dt *
      (anchoredDisplacement N nodes ((i : Int) - 1) + anchoredDisplacement N nodes ((i : Int) + 1)
        - 2 * (nodes.getD i {}).lateral_displacement)

/-- The node the two-pass reference gives index `i`: the new velocity, and
`d[i] + v'[i] * dt`. -/
def referenceNode (N : Nat) (mass spring_constant dt : ℚ) (nodes : List Node)
    (i : Nat) : Node :=
  { velocity := referenceVelocity N mass spring_constant dt nodes i
    lateral_displacement :=
      (nodes.getD i {}).lateral_displacement +
        referenceVelocity N mass spring_constant dt nodes i * dt }

/-- The two-pass reference of `step`: every node is computed from the pre-step array. -/
def stepReference (N : Nat) (mass spring_constant dt : ℚ) (nodes : List Node) : List Node :=
  (List.range N).map (referenceNode N mass spring_constant dt nodes)

/-- The index `floor((N - 1) * position)` at which `pluck` puts the peak. -/
def startIndex (N : Nat) (position : ℚ) : Nat := ⌊((N : ℚ) - 1) * position⌋.toNat

/-- The node the specification of `pluck` gives index `i`. -/
def pluckNode (N : Nat) (position strength : ℚ) (i : Nat) : Node :=
  if startIndex N position ≤ i then
    { velocity := 0
      lateral_displacement :=
        lerp 0 strength (((N : ℚ) - i) / ((N : ℚ) - startIndex N position)) }
  else
    { velocity := 0
      lateral_displacement :=
        lerp 0 strength ((startIndex N position : ℚ) / ((startIndex N position : ℚ) - i)) }

/-- The array the specification of `pluck` describes. -/
def pluckReference (N : Nat) (position strength : ℚ) : List Node :=
  (List.range N).map (pluckNode N position strength)

/-- The array of length `N` whose node `i` is `f i`. -/
def tabulate (N : Nat) (f : Nat → Node) : List Node := (List.range N).map f

/-- The table `f` with entry `i` replaced by `x`. -/
def updateTable (f : Nat → Node) (i : Nat) (x : Node) : Nat → Node :=
  fun j => if j = i then x else f j

/-- The displacement of the left neighbour of node `i`; the left anchor for `i = 0`. -/
def leftDisplacement (f : Nat → Node) (i : Nat) : ℚ :=
  if i = 0 then 0 else (f (i - 1)).lateral_displacement

/-- The displacement of the right neighbour of node `i`; the right anchor for `i = N - 1`. -/
def rightDisplacement (N : Nat) (f : Nat → Node) (i : Nat) : ℚ :=
  if i + 1 < N then (f (i + 1)).lateral_displacement else 0

/-- Node `i` after both spring contributions of pass 1. -/
def pass1Node (N : Nat) (mass k dt : ℚ) (f : Nat → Node) (i : Nat) : Node :=
  ((f i).integrateSpringForce mass k (leftDisplacement f i) dt).integrateSpringForce
    mass k (rightDisplacement N f i) dt

/-- The node the first loop of `pluck` writes at index `i`. -/
def rightNode (N start : Nat) (strength : ℚ) (i : Nat) : Node :=
  { velocity := 0
    lateral_displacement := lerp 0 strength (((N : ℚ) - i) / ((N : ℚ) - start)) }

/-- The node the second loop of `pluck` writes at index `i`. -/
def leftNode (start : Nat) (strength : ℚ) (i : Nat) : Node :=
  { velocity := 0
    lateral_displacement := lerp 0 strength ((start : ℚ) / ((start : ℚ) - i)) }

/-- The node `pluck` leaves at index `i` when its start index is `start`. -/
def profileNode (N start : Nat) (strength : ℚ) (i : Nat) : Node :=
  if start ≤ i then rightNode N start strength i else leftNode start strength i

/-- The array `pluck` leaves when its start index is `start`. -/
def pluckProfile (N start : Nat) (strength : ℚ) : List Node :=
  (List.range N).map (profileNode N start strength)

/-! ## The modified energy -/

/-- The displacement field of an array, shifted by one: entry `0` is the left anchor and
entry `j + 1` is the displacement of node `j` (`0` past the end of the array, which is the
right anchor for entry `N + 1`). -/
def displacementField (nodes : List Node) : Nat → ℚ
  | 0 => 0
  | j + 1 => (nodes.getD j {}).lateral_displacement

/-- The velocity field of an array, shifted by one like `displacementField`. -/
def velocityField (nodes : List Node) : Nat → ℚ
  | 0 => 0
  | j + 1 => (nodes.getD j {}).velocity

/-- The second difference `2 * D (i+1) - D i - D (i+2)` of a displacement field whose
entry `j + 1` belongs to node `j` and whose entry `0` is the left anchor. -/
def secondDifference (D : Nat → ℚ) (i : Nat) : ℚ := 2 * D (i + 1) - D i - D (i + 2)

/-- The sum of the squared extensions of the `N + 1` springs. -/
def stretchSum (N : Nat) (D : Nat → ℚ) : ℚ :=
  ∑ j ∈ Finset.range (N + 1), (D (j + 1) - D j) ^ 2

/-- The modified energy of a displacement field and a velocity field. -/
def energyOf (N : Nat) (mass k dt : ℚ) (D V : Nat → ℚ) : ℚ :=
  mass * ∑ i ∈ Finset.range N, V (i + 1) ^ 2 + k * stretchSum N D
    - dt * k * ∑ i ∈ Finset.range N, V (i + 1) * secondDifference D i

/-! ## Scaling and the modified energy of an array -/

/-- The array with every velocity and displacement multiplied by `a`. -/
def scaleNodes (a : ℚ) (nodes : List Node) : List Node :=
  nodes.map fun n =>
    { velocity := a * n.velocity, lateral_displacement := a * n.lateral_displacement }

/-- The modified energy `E_dt(d, v)` of an array, with the anchors `d[-1] = d[N] = 0`:
`mass * sum_{i=0..N-1} v[i]^2 + springConstant * sum_{j=0..N} (d[j] - d[j-1])^2
 - dt * springConstant * sum_{i=0..N-1} v[i] * (2*d[i] - d[i-1] - d[i+1])`. -/
def modifiedEnergy (N : Nat) (mass spring_constant dt : ℚ) (nodes : List Node) : ℚ :=
  mass * ∑ i ∈ Finset.range N, (nodes.getD i {}).velocity ^ 2
    + spring_constant * ∑ j ∈ Finset.range (N + 1),
        (anchoredDisplacement N nodes (j : Int) - anchoredDisplacement N nodes ((j : Int) - 1)) ^ 2
    - dt * spring_constant * ∑ i ∈ Finset.range N,
        (nodes.getD i {}).velocity *
          (2 * anchoredDisplacement N nodes (i : Int) - anchoredDisplacement N nodes ((i : Int) - 1)
            - anchoredDisplacement N nodes ((i : Int) + 1))

/-! ## Lemmas -/

/-! ## Arrays as tables -/

theorem tabulate_length (N : Nat) (f : Nat → Node) : (tabulate N f).length = N := by
  simp [tabulate]

theorem tabulate_getElem? (N : Nat) (f : Nat → Node) (i : Nat) :
    (tabulate N f)[i]? = if i < N then some (f i) else none := by
  unfold tabulate
  by_cases h : i < N
  · simp [h, List.getElem?_range]
  · simp [h]
    omega

theorem tabulate_getD (N : Nat) (f : Nat → Node) (i : Nat) (h : i < N) :
    (tabulate N f).getD i {} = f i := by
  simp [List.getD_eq_getElem?_getD, tabulate_getElem?, h]

theorem tabulate_congr {N : Nat} {f g : Nat → Node} (h : ∀ i, i < N → f i = g i) :
    tabulate N f = tabulate N g := by
  unfold tabulate
  apply List.map_congr_left
  intro i hi
  exact h i (List.mem_range.mp hi)

theorem eq_tabulate (nodes : List Node) :
    nodes = tabulate nodes.length (fun i => nodes.getD i {}) := by
  apply List.ext_getElem?
  intro i
  rw [tabulate_getElem?]
  by_cases h : i < nodes.length
  · simp [h, List.getD_eq_getElem?_getD]
  · simp [h]
    omega

theorem updateTable_same (f : Nat → Node) (i : Nat) (x : Node) : updateTable f i x i = x := by
  simp [updateTable]

theorem updateTable_ne (f : Nat → Node) {i j : Nat} (x : Node) (h : j ≠ i) :
    updateTable f i x j = f j := by
  simp [updateTable, h]

theorem updateTable_idem (f : Nat → Node) (i : Nat) (x y : Node) :
    updateTable (updateTable f i x) i y = updateTable f i y := by
  funext j
  by_cases h : j = i <;> simp [updateTable, h]

theorem tabulate_set (N : Nat) (f : Nat → Node) (i : Nat) (x : Node) :
    (tabulate N f).set i x = tabulate N (updateTable f i x) := by
  apply List.ext_getElem?
  intro j
  rw [List.getElem?_set, tabulate_getElem?, tabulate_getElem?, tabulate_length]
  by_cases hij : i = j
  · subst hij
    simp [updateTable_same]
  · have hji : j ≠ i := fun h => hij h.symm
    simp [hij, updateTable_ne f x hji]

/-! ## Single statements on a table -/

theorem readNode_tabulate {N : Nat} (f : Nat → Node) {i : Int}
    (h0 : 0 ≤ i) (h1 : i.toNat < N) :
    readNode (tabulate N f) i = .ok (f i.toNat) := by
  simp [readNode, h0, tabulate_getElem?, h1]

theorem writeNode_tabulate {N : Nat} (f : Nat → Node) {i : Int} (x : Node)
    (h0 : 0 ≤ i) (h1 : i.toNat < N) :
    writeNode (tabulate N f) i x = .ok (tabulate N (updateTable f i.toNat x)) := by
  simp [writeNode, h0, tabulate_length, h1, tabulate_set]

theorem readDisplacement_tabulate {N : Nat} (f : Nat → Node) {i : Int}
    (h0 : 0 ≤ i) (h1 : i.toNat < N) :
    readDisplacement (tabulate N f) i = .ok (f i.toNat).lateral_displacement := by
  simp [readDisplacement, readNode_tabulate f h0 h1, bind, Except.bind, pure, Except.pure]

theorem integrateAt_tabulate {N : Nat} (mass k : ℚ) (f : Nat → Node) {i : Int} (x dt : ℚ)
    (h0 : 0 ≤ i) (h1 : i.toNat < N) :
    integrateAt mass k (tabulate N f) i x dt =
      .ok (tabulate N (updateTable f i.toNat
        ((f i.toNat).integrateSpringForce mass k x dt))) := by
  simp [integrateAt, readNode_tabulate f h0 h1, writeNode_tabulate f _ h0 h1, bind, Except.bind]

theorem updateAt_tabulate {N : Nat} (f : Nat → Node) {i : Int} (dt : ℚ)
    (h0 : 0 ≤ i) (h1 : i.toNat < N) :
    updateAt (tabulate N f) i dt =
      .ok (tabulate N (updateTable f i.toNat ((f i.toNat).updateDisplacement dt))) := by
  simp [updateAt, readNode_tabulate f h0 h1, writeNode_tabulate f _ h0 h1, bind, Except.bind]

theorem setDisplacement_tabulate {N : Nat} (f : Nat → Node) {i : Int} (x : ℚ)
    (h0 : 0 ≤ i) (h1 : i.toNat < N) :
    setDisplacement (tabulate N f) i x =
      .ok (tabulate N (updateTable f i.toNat
        { f i.toNat with lateral_displacement := x })) := by
  simp [setDisplacement, readNode_tabulate f h0 h1, writeNode_tabulate f _ h0 h1, bind,
    Except.bind]

theorem setVelocity_tabulate {N : Nat} (f : Nat → Node) {i : Int} (x : ℚ)
    (h0 : 0 ≤ i) (h1 : i.toNat < N) :
    setVelocity (tabulate N f) i x =
      .ok (tabulate N (updateTable f i.toNat { f i.toNat with velocity := x })) := by
  simp [setVelocity, readNode_tabulate f h0 h1, writeNode_tabulate f _ h0 h1, bind,
    Except.bind]

/-- A loop whose iteration `i` rewrites node `i` alone, by `h i`, as long as the table
satisfies `Inv`: it rewrites the nodes `j, …, j + count - 1`. -/
theorem forLoop_tabulate {N : Nat} (body : Int → List Node → Exec (List Node))
    (h : Nat → Node → Node) (Inv : (Nat → Node) → Prop) (lo hi : Nat)
    (hbody : ∀ (i : Nat) (f : Nat → Node), lo ≤ i → i < hi → Inv f →
      body (i : Int) (tabulate N f) = .ok (tabulate N (updateTable f i (h i (f i)))) ∧
        Inv (updateTable f i (h i (f i)))) :
    ∀ (count j : Nat) (f : Nat → Node), lo ≤ j → j + count ≤ hi → Inv f →
      forLoop body count (j : Int) (tabulate N f) =
        .ok (tabulate N (fun i => if j ≤ i ∧ i < j + count then h i (f i) else f i)) := by
  intro count
  induction count with
  | zero =>
    intro j f _ _ _
    simp only [forLoop]
    congr 1
    apply tabulate_congr
    intro i _
    have h0 : ¬ (j ≤ i ∧ i < j + 0) := by omega
    simp only [h0, if_false]
  | succ c ih =>
    intro j f hlo hj hf
    obtain ⟨hb, hinv⟩ := hbody j f hlo (by omega) hf
    have := ih (j + 1) _ (by omega) (by omega) hinv
    simp only [forLoop, hb, bind, Except.bind]
    rw [show ((j : Int) + 1) = ((j + 1 : Nat) : Int) by push_cast; rfl, this]
    congr 1
    apply tabulate_congr
    intro i _
    by_cases hij : i = j
    · subst hij
      simp [updateTable_same]
    · have h1 : (j + 1 ≤ i ∧ i < j + 1 + c) ↔ (j ≤ i ∧ i < j + (c + 1)) := by omega
      simp only [h1, updateTable_ne _ _ hij]

/-- The loop `for (int i = lo; i < hi; ++i)` on a table, for a body as in
`forLoop_tabulate`. -/
theorem forRange_tabulate {N : Nat} (body : Int → List Node → Exec (List Node))
    (h : Nat → Node → Node) (Inv : (Nat → Node) → Prop) (lo hi : Nat)
    (hbody : ∀ (i : Nat) (f : Nat → Node), lo ≤ i → i < hi → Inv f →
      body (i : Int) (tabulate N f) = .ok (tabulate N (updateTable f i (h i (f i)))) ∧
        Inv (updateTable f i (h i (f i))))
    (f : Nat → Node) (hf : Inv f) (lo' hi' : Int) (hlo : lo' = (lo : Int))
    (hhi : hi' = (hi : Int)) :
    forRange lo' hi' body (tabulate N f) =
      .ok (tabulate N (fun i => if lo ≤ i ∧ i < hi then h i (f i) else f i)) := by
  subst hlo hhi
  unfold forRange
  by_cases hlh : lo ≤ hi
  · have hc : ((hi : Int) - (lo : Int)).toNat = hi - lo := by omega
    rw [hc, forLoop_tabulate body h Inv lo hi hbody (hi - lo) lo f le_rfl (by omega) hf]
    congr 1
    apply tabulate_congr
    intro i _
    have h1 : (lo ≤ i ∧ i < lo + (hi - lo)) ↔ (lo ≤ i ∧ i < hi) := by omega
    simp only [h1]
  · have hc : ((hi : Int) - (lo : Int)).toNat = 0 := by omega
    rw [hc]
    simp only [forLoop]
    congr 1
    apply tabulate_congr
    intro i _
    have h0 : ¬ (lo ≤ i ∧ i < hi) := by omega
    simp only [h0, if_false]

/-! ## `step` on a table -/

theorem integrateSpringForce_displacement (mass k x dt : ℚ) (n : Node) :
    (n.integrateSpringForce mass k x dt).lateral_displacement = n.lateral_displacement := rfl

theorem updateTable_self (f : Nat → Node) (i j : Nat) : updateTable f i (f i) j = f j := by
  by_cases h : j = i
  · subst h
    exact updateTable_same f j (f j)
  · exact updateTable_ne f _ h

theorem updateTable_integrate_displacement (f : Nat → Node) (i j : Nat) (n : Node)
    (mass k x dt : ℚ) :
    (updateTable f i (n.integrateSpringForce mass k x dt) j).lateral_displacement =
      (updateTable f i n j).lateral_displacement := by
  by_cases h : j = i
  · subst h
    simp only [updateTable_same, integrateSpringForce_displacement]
  · simp only [updateTable_ne _ _ h]

/-- The loop over the interior nodes in pass 1: displacements are only read. -/
theorem pass1_loop (N : Nat) (hN : 1 ≤ N) (mass k dt : ℚ) (f g : Nat → Node)
    (hg : ∀ j, (g j).lateral_displacement = (f j).lateral_displacement) :
    forRange 1 ((N : Int) - 1) (fun i nodes => do
      let dl ← readDisplacement nodes (i - 1)
      let nodes ← integrateAt mass k nodes i dl dt
      let dr ← readDisplacement nodes (i + 1)
      integrateAt mass k nodes i dr dt) (tabulate N g) =
    .ok (tabulate N (fun i => if 1 ≤ i ∧ i < N - 1 then
      ((g i).integrateSpringForce mass k (f (i - 1)).lateral_displacement dt).integrateSpringForce
        mass k (f (i + 1)).lateral_displacement dt else g i)) := by
  have h1 : (1 : Int) = ((1 : Nat) : Int) := rfl
  have h2 : (N : Int) - 1 = ((N - 1 : Nat) : Int) := by omega
  refine forRange_tabulate _ (fun i n =>
      (n.integrateSpringForce mass k (f (i - 1)).lateral_displacement dt).integrateSpringForce
        mass k (f (i + 1)).lateral_displacement dt)
      (fun g => ∀ j, (g j).lateral_displacement = (f j).lateral_displacement) 1 (N - 1)
      ?_ g hg _ _ h1 h2
  intro i g hlo hhi hg
  constructor
  · have a0 : (0 : Int) ≤ (i : Int) - 1 := by omega
    have a1 : ((i : Int) - 1).toNat < N := by omega
    have b0 : (0 : Int) ≤ (i : Int) := by omega
    have b1 : (i : Int).toNat < N := by omega
    have c0 : (0 : Int) ≤ (i : Int) + 1 := by omega
    have c1 : ((i : Int) + 1).toNat < N := by omega
    have e1 : ((i : Int) - 1).toNat = i - 1 := by omega
    have e2 : ((i : Int) + 1).toNat = i + 1 := by omega
    have e3 : (i : Int).toNat = i := by omega
    have n1 : i + 1 ≠ i := by omega
    simp only [readDisplacement_tabulate _ a0 a1, integrateAt_tabulate _ _ _ _ _ b0 b1,
      readDisplacement_tabulate _ c0 c1, bind, Except.bind, e1, e2, e3, hg,
      updateTable_ne _ _ n1, updateTable_same, updateTable_idem]
  · intro j
    by_cases hji : j = i
    · subst hji
      simp only [updateTable_same, integrateSpringForce_displacement, hg]
    · simp only [updateTable_ne _ _ hji, hg]

/-- The loop of pass 2. -/
theorem pass2_loop (N : Nat) (dt : ℚ) (g : Nat → Node) :
    forRange 0 (N : Int) (fun i nodes => updateAt nodes i dt) (tabulate N g) =
    .ok (tabulate N (fun i => (g i).updateDisplacement dt)) := by
  have h1 : (0 : Int) = ((0 : Nat) : Int) := rfl
  rw [forRange_tabulate _ (fun _ n => n.updateDisplacement dt) (fun _ => True) 0 N ?_ g
    trivial _ _ h1 rfl]
  · congr 1
    apply tabulate_congr
    intro i hi
    simp [hi]
  · intro i g _ hhi _
    refine ⟨?_, trivial⟩
    have b0 : (0 : Int) ≤ (i : Int) := by omega
    have b1 : (i : Int).toNat < N := by omega
    have e3 : (i : Int).toNat = i := by omega
    simp only [updateAt_tabulate _ _ b0 b1, e3]

theorem ok_bind {α β : Type} (a : α) (g : α → Exec β) : (Except.ok a >>= g) = g a := rfl

theorem step_tabulate (N : Nat) (hN : 1 ≤ N) (mass k dt : ℚ) (f : Nat → Node) :
    String.step N mass k dt (tabulate N f) =
      .ok (tabulate N (fun i => (pass1Node N mass k dt f i).updateDisplacement dt)) := by
  unfold String.step
  have z0 : (0 : Int) ≤ 0 := le_rfl
  have z1 : (0 : Int).toNat < N := by simp; omega
  have l0 : (0 : Int) ≤ (N : Int) - 1 := by omega
  have l1 : ((N : Int) - 1).toNat < N := by omega
  have el : ((N : Int) - 1).toNat = N - 1 := by omega
  have ez : (0 : Int).toNat = 0 := rfl
  by_cases h1 : N = 1
  · subst h1
    have hc : ¬ (((1 : Nat) : Int) > 1) := by omega
    have hcount : ((((1 : Nat) : Int) - 1) - 1).toNat = 0 := by omega
    simp only [integrateAt_tabulate _ _ _ _ _ z0 z1, ok_bind, hc, if_false, pure_bind]
    rw [show forRange 1 (((1 : Nat) : Int) - 1) = fun _ nodes => Except.ok nodes from by
      funext body nodes
      simp only [forRange, hcount, forLoop]]
    simp only [integrateAt_tabulate _ _ _ _ _ l0 l1, ok_bind, el, ez, pass2_loop]
    rfl
  · have hc : ((N : Int) > 1) := by omega
    have o0 : (0 : Int) ≤ 1 := by omega
    have o1 : (1 : Int).toNat < N := by simp; omega
    have eo : (1 : Int).toNat = 1 := rfl
    have m0 : (0 : Int) ≤ (N : Int) - 2 := by omega
    have m1 : ((N : Int) - 2).toNat < N := by omega
    have em : ((N : Int) - 2).toNat = N - 2 := by omega
    simp only [integrateAt_tabulate _ _ _ _ _ z0 z1, ok_bind, hc, if_true,
      readDisplacement_tabulate _ o0 o1, ez, eo, updateTable_idem]
    rw [pass1_loop N hN mass k dt f]
    · simp only [readDisplacement_tabulate _ m0 m1, integrateAt_tabulate _ _ _ _ _ l0 l1, el, em,
        ok_bind, pass2_loop, updateTable_idem, updateTable_same]
      congr 1
      apply tabulate_congr
      intro i hi
      congr 1
      have one : (1 : Nat) ≠ 0 := by omega
      simp only [pass1Node, leftDisplacement, rightDisplacement, updateTable_ne _ _ one]
      by_cases hi0 : i = 0
      · subst hi0
        have a1 : (0 : Nat) ≠ N - 1 := by omega
        have a2 : 0 + 1 < N := by omega
        have a3 : ¬ (1 ≤ 0 ∧ 0 < N - 1) := by omega
        simp only [updateTable_ne _ _ a1, a2, a3, if_true, if_false, updateTable_same]
      · by_cases hiN : i = N - 1
        · have a1 : ¬ (i + 1 < N) := by omega
          have a2 : ¬ (1 ≤ N - 1 ∧ N - 1 < N - 1) := by omega
          have a3 : N - 2 = i - 1 := by omega
          have a4 : N - 1 ≠ 0 := by omega
          rw [← hiN]
          rw [← hiN] at a2 a4
          simp only [a1, a2, a3, hi0, if_false, updateTable_same, updateTable_ne _ _ a4,
            apply_ite Node.lateral_displacement, integrateSpringForce_displacement,
            updateTable_integrate_displacement, updateTable_self, ite_self]
        · have a1 : (i + 1 < N) := by omega
          have a2 : (1 ≤ i ∧ i < N - 1) := by omega
          simp only [a1, a2, hi0, if_true, if_false, updateTable_ne _ _ hiN, and_self,
            updateTable_ne _ _ hi0]
    · intro j
      simp only [integrateSpringForce_displacement, updateTable_integrate_displacement,
        updateTable_self, updateTable_same]

/-- On a well-formed array `step` returns, and returns the two-pass reference. -/
theorem step_eq_stepReference (N : Nat) (hN : 1 ≤ N) (mass k dt : ℚ) (nodes : List Node)
    (hlen : nodes.length = N) :
    String.step N mass k dt nodes = .ok (stepReference N mass k dt nodes) := by
  subst hlen
  have key := step_tabulate nodes.length hN mass k dt (fun i => nodes.getD i {})
  rw [← eq_tabulate nodes] at key
  rw [key]
  congr 1
  apply tabulate_congr
  intro i hi
  have hl : leftDisplacement (fun i => nodes.getD i {}) i =
      anchoredDisplacement nodes.length nodes ((i : Int) - 1) := by
    unfold leftDisplacement anchoredDisplacement
    by_cases h0 : i = 0
    · subst h0
      simp
    · have c : (0 : Int) ≤ (i : Int) - 1 ∧ (i : Int) - 1 < (nodes.length : Int) := by omega
      have e : ((i : Int) - 1).toNat = i - 1 := by omega
      simp only [h0, c, e, if_false, and_self, if_true]
  have hr : rightDisplacement nodes.length (fun i => nodes.getD i {}) i =
      anchoredDisplacement nodes.length nodes ((i : Int) + 1) := by
    unfold rightDisplacement anchoredDisplacement
    have e : ((i : Int) + 1).toNat = i + 1 := by omega
    by_cases h0 : i + 1 < nodes.length
    · have c : (0 : Int) ≤ (i : Int) + 1 ∧ (i : Int) + 1 < (nodes.length : Int) := by omega
      simp only [h0, c, e, and_self, if_true]
    · have c : ¬ ((0 : Int) ≤ (i : Int) + 1 ∧ (i : Int) + 1 < (nodes.length : Int)) := by omega
      simp only [h0, c, if_false]
  simp only [pass1Node, referenceNode, referenceVelocity, Node.updateDisplacement,
    Node.integrateSpringForce, hl, hr, Node.mk.injEq]
  constructor <;> ring

/-! ## `pluck` on a table -/

/-- Under the assertion of `pluck`, `start_index` is `floor((N - 1) * position)` and lies
in `0..N-1`. -/
theorem start_index_eq (N : Nat) (hN : 1 ≤ N) (position : ℚ) (h0 : 0 ≤ position)
    (h1 : position ≤ 1) :
    truncToInt ((((N : Int) - 1 : Int) : ℚ) * position) = (startIndex N position : Int) ∧
      startIndex N position ≤ N - 1 := by
  have hN' : (1 : ℚ) ≤ (N : ℚ) := by exact_mod_cast hN
  have hx0 : 0 ≤ ((N : ℚ) - 1) * position := mul_nonneg (by linarith) h0
  have hx1 : ((N : ℚ) - 1) * position ≤ (N : ℚ) - 1 := by nlinarith
  have hf0 : 0 ≤ ⌊((N : ℚ) - 1) * position⌋ := Int.floor_nonneg.mpr hx0
  have hf1 : ⌊((N : ℚ) - 1) * position⌋ ≤ (N : Int) - 1 := by
    have h2 : ((⌊((N : ℚ) - 1) * position⌋ : Int) : ℚ) ≤ (N : ℚ) - 1 :=
      le_trans (Int.floor_le _) hx1
    have h3 : ((⌊((N : ℚ) - 1) * position⌋ : Int) : ℚ) ≤ (((N : Int) - 1 : Int) : ℚ) := by
      push_cast
      exact h2
    exact_mod_cast h3
  constructor
  · unfold truncToInt startIndex
    push_cast
    rw [if_pos hx0, Int.toNat_of_nonneg hf0]
  · unfold startIndex
    omega

/-- The first loop of `pluck`. -/
theorem pluck_loop1 (N start : Nat) (hs : start < N) (strength : ℚ) (g : Nat → Node) :
    forRange (start : Int) (N : Int) (fun i nodes => do
        let distance_to_end ←
          checkedDiv nodes (((N : Int) - i : Int) : ℚ) (((N : Int) - (start : Int) : Int) : ℚ)
        let nodes ← setDisplacement nodes i (lerp 0 strength distance_to_end)
        setVelocity nodes i 0) (tabulate N g) =
    .ok (tabulate N (fun i => if start ≤ i ∧ i < N then rightNode N start strength i else g i)) := by
  refine forRange_tabulate _ (fun i _ => rightNode N start strength i) (fun _ => True) start N
      ?_ g trivial _ _ rfl rfl
  intro i g _ hhi _
  refine ⟨?_, trivial⟩
  have b0 : (0 : Int) ≤ (i : Int) := by omega
  have b1 : (i : Int).toNat < N := by omega
  have e3 : (i : Int).toNat = i := by omega
  have hden : ((((N : Int) - (start : Int) : Int)) : ℚ) ≠ 0 := by
    have : (N : Int) - (start : Int) ≠ 0 := by omega
    exact_mod_cast this
  simp only [checkedDiv, hden, if_false, ok_bind, setDisplacement_tabulate _ _ b0 b1,
    setVelocity_tabulate _ _ b0 b1, e3, updateTable_idem, updateTable_same]
  congr 2
  simp only [rightNode]
  push_cast
  rfl

/-- The second loop of `pluck`. -/
theorem pluck_loop2 (N start : Nat) (hs : start < N) (strength : ℚ) (g : Nat → Node) :
    forRange 0 (start : Int) (fun i nodes => do
        let distance_to_start ←
          checkedDiv nodes (((start : Int)) : ℚ) (((start : Int) - i : Int) : ℚ)
        let nodes ← setDisplacement nodes i (lerp 0 strength distance_to_start)
        setVelocity nodes i 0) (tabulate N g) =
    .ok (tabulate N (fun i => if i < start then leftNode start strength i else g i)) := by
  have h1 : (0 : Int) = ((0 : Nat) : Int) := rfl
  rw [forRange_tabulate _ (fun i _ => leftNode start strength i) (fun _ => True) 0 start
      ?_ g trivial _ _ h1 rfl]
  · congr 1
    apply tabulate_congr
    intro i _
    simp
  intro i g _ hhi _
  refine ⟨?_, trivial⟩
  have b0 : (0 : Int) ≤ (i : Int) := by omega
  have b1 : (i : Int).toNat < N := by omega
  have e3 : (i : Int).toNat = i := by omega
  have hden : ((((start : Int) - (i : Int) : Int)) : ℚ) ≠ 0 := by
    have : (start : Int) - (i : Int) ≠ 0 := by omega
    exact_mod_cast this
  simp only [checkedDiv, hden, if_false, ok_bind, setDisplacement_tabulate _ _ b0 b1,
    setVelocity_tabulate _ _ b0 b1, e3, updateTable_idem, updateTable_same]
  congr 2
  simp only [leftNode]
  push_cast
  rfl

/-- Whatever the rounding, when the start index is `start < N`, `pluck` returns the profile
around `start`. -/
theorem pluck_tabulate_of_start (toFloat : ℚ → ℚ) (N : Nat) (position strength : ℚ)
    (h0 : 0 ≤ position) (h1 : position ≤ 1) (start : Nat)
    (hs : String.start_index toFloat N position = (start : Int)) (hlt : start < N)
    (f : Nat → Node) :
    String.pluck toFloat N position strength (tabulate N f) =
      .ok (tabulate N (profileNode N start strength)) := by
  have hc : ¬ ¬ (position ≥ 0 ∧ position ≤ 1) := not_not.mpr ⟨h0, h1⟩
  unfold String.pluck
  simp only [hc, if_false, hs]
  rw [pluck_loop1 N _ hlt, ok_bind, pluck_loop2 N _ hlt]
  congr 1
  apply tabulate_congr
  intro i hi
  unfold profileNode
  by_cases c : start ≤ i
  · have c' : ¬ (i < start) := by omega
    simp only [c, c', hi, and_self, if_true, if_false]
  · have c' : (i < start) := by omega
    simp only [c, c', if_true, if_false]

theorem pluck_eq_pluckProfile (toFloat : ℚ → ℚ) (N : Nat) (position strength : ℚ)
    (h0 : 0 ≤ position) (h1 : position ≤ 1) (start : Nat)
    (hs : String.start_index toFloat N position = (start : Int)) (hlt : start < N)
    (nodes : List Node) (hlen : nodes.length = N) :
    String.pluck toFloat N position strength nodes = .ok (pluckProfile N start strength) := by
  subst hlen
  have key := pluck_tabulate_of_start toFloat nodes.length position strength h0 h1 start hs hlt
    (fun i => nodes.getD i {})
  rw [← eq_tabulate nodes] at key
  exact key

theorem pluckProfile_length (N start : Nat) (strength : ℚ) :
    (pluckProfile N start strength).length = N :=
  tabulate_length N _

theorem pluckProfile_getElem? (N start : Nat) (strength : ℚ) (i : Nat) (hi : i < N) :
    (pluckProfile N start strength)[i]? = some (profileNode N start strength i) := by
  have := tabulate_getElem? N (profileNode N start strength) i
  rw [if_pos hi] at this
  exact this

theorem pluckReference_eq_pluckProfile (N : Nat) (position strength : ℚ) :
    pluckReference N position strength = pluckProfile N (startIndex N position) strength := by
  unfold pluckReference pluckProfile
  apply List.map_congr_left
  intro i _
  unfold pluckNode profileNode rightNode leftNode
  rfl

/-- On a well-formed array and a position in `[0, 1]`, in exact arithmetic, `pluck` returns,
and returns the array its specification describes. -/
theorem pluck_eq_pluckReference (N : Nat) (hN : 1 ≤ N) (position strength : ℚ)
    (h0 : 0 ≤ position) (h1 : position ≤ 1) (nodes : List Node) (hlen : nodes.length = N) :
    String.pluck noRounding N position strength nodes =
      .ok (pluckReference N position strength) := by
  obtain ⟨hs, hle⟩ := start_index_eq N hN position h0 h1
  rw [pluckReference_eq_pluckProfile]
  exact pluck_eq_pluckProfile noRounding N position strength h0 h1 (startIndex N position) hs
    (by omega) nodes hlen

/-! ## Consequences of the two references -/

theorem stepReference_length (N : Nat) (mass k dt : ℚ) (nodes : List Node) :
    (stepReference N mass k dt nodes).length = N :=
  tabulate_length N _

theorem stepReference_getElem? (N : Nat) (mass k dt : ℚ) (nodes : List Node) (i : Nat)
    (hi : i < N) :
    (stepReference N mass k dt nodes)[i]? = some (referenceNode N mass k dt nodes i) := by
  have := tabulate_getElem? N (referenceNode N mass k dt nodes) i
  rw [if_pos hi] at this
  exact this

theorem pluckReference_length (N : Nat) (position strength : ℚ) :
    (pluckReference N position strength).length = N :=
  tabulate_length N _

theorem pluckReference_getElem? (N : Nat) (position strength : ℚ) (i : Nat) (hi : i < N) :
    (pluckReference N position strength)[i]? = some (pluckNode N position strength i) := by
  have := tabulate_getElem? N (pluckNode N position strength) i
  rw [if_pos hi] at this
  exact this

theorem sample_eq (N : Nat) (hN : 1 ≤ N) (nodes : List Node) (hlen : nodes.length = N) :
    String.sample N nodes = .ok ((nodes.getD (N / 2) {}).lateral_displacement, nodes) := by
  have h0 : (0 : Int) ≤ Int.tdiv (N : Int) 2 := by
    rw [show Int.tdiv (N : Int) 2 = ((N / 2 : Nat) : Int) from rfl]
    omega
  have e : (Int.tdiv (N : Int) 2).toNat = N / 2 := by
    rw [show Int.tdiv (N : Int) 2 = ((N / 2 : Nat) : Int) from rfl]
    omega
  have hlt : N / 2 < nodes.length := by omega
  unfold String.sample readNode
  simp only [h0, if_true, e, List.getElem?_eq_getElem hlt, ok_bind, List.getD_eq_getElem?_getD,
    Option.getD_some]
  rfl

theorem fresh_getD (N i : Nat) : (String.fresh N).getD i {} = {} := by
  unfold String.fresh
  rw [List.getD_eq_getElem?_getD, List.getElem?_replicate]
  split_ifs <;> rfl

theorem fresh_length (N : Nat) : (String.fresh N).length = N := by
  simp [String.fresh]

theorem stepReference_fresh (N : Nat) (mass k dt : ℚ) :
    stepReference N mass k dt (String.fresh N) = String.fresh N := by
  apply List.ext_getElem?
  intro i
  by_cases hi : i < N
  · rw [stepReference_getElem? N mass k dt _ i hi]
    unfold String.fresh
    rw [List.getElem?_replicate, if_pos hi]
    have ha : ∀ j, anchoredDisplacement N (List.replicate N ({} : Node)) j = 0 := by
      intro j
      unfold anchoredDisplacement
      split_ifs
      · exact congrArg Node.lateral_displacement (fresh_getD N j.toNat)
      · rfl
    have hg : (List.replicate N ({} : Node)).getD i {} = {} := fresh_getD N i
    simp only [referenceNode, referenceVelocity, ha, hg]
    norm_num
  · have h1 : (stepReference N mass k dt (String.fresh N)).length ≤ i := by
      rw [stepReference_length]
      omega
    have h2 : (String.fresh N).length ≤ i := by
      rw [fresh_length]
      omega
    rw [List.getElem?_eq_none h1, List.getElem?_eq_none h2]

theorem sampleN_eq (N : Nat) (hN : 1 ≤ N) (nodes : List Node) (hlen : nodes.length = N)
    (count : Nat) :
    String.sampleN N count nodes =
      .ok (List.replicate count (nodes.getD (N / 2) {}).lateral_displacement, nodes) := by
  induction count with
  | zero => rfl
  | succ c ih =>
    simp only [String.sampleN, sample_eq N hN nodes hlen, ok_bind, ih, List.replicate_succ]
    rfl

theorem startIndex_five_half : startIndex 5 (1 / 2) = 2 := by
  unfold startIndex
  norm_num
  rfl

theorem startIndex_zero (N : Nat) : startIndex N 0 = 0 := by
  simp [startIndex]

/-- The array `pluck(1/2, strength)` leaves for `N = 5`. -/
theorem pluck_five_half (strength : ℚ) (nodes : List Node) (hlen : nodes.length = 5) :
    String.pluck noRounding 5 (1 / 2) strength nodes =
      .ok [⟨0, strength⟩, ⟨0, 2 * strength⟩, ⟨0, strength⟩, ⟨0, 2 / 3 * strength⟩,
        ⟨0, 1 / 3 * strength⟩] := by
  rw [pluck_eq_pluckReference 5 (by decide) (1 / 2) strength (by norm_num) (by norm_num)
    nodes hlen]
  simp only [pluckReference, List.range_succ, List.range_zero, List.nil_append, List.map_cons,
    List.map_nil, List.map_append, List.cons_append, pluckNode, startIndex_five_half, lerp]
  norm_num

/-! ## The modified energy is conserved and bounds the displacements -/

/-- Summation by parts on the chain of springs. -/
theorem sum_by_parts (U W : Nat → ℚ) (hU : U 0 = 0) (N : Nat) :
    ∑ j ∈ Finset.range (N + 1), (U (j + 1) - U j) * (W (j + 1) - W j) =
      ∑ i ∈ Finset.range N, U (i + 1) * secondDifference W i
        + U (N + 1) * (W (N + 1) - W N) := by
  induction N with
  | zero => simp [hU]
  | succ n ih =>
    rw [Finset.sum_range_succ, ih, Finset.sum_range_succ (fun i => U (i + 1) * secondDifference W i)]
    simp only [secondDifference]
    ring

theorem energyOf_step (N : Nat) (mass k dt : ℚ) (D V D' V' : Nat → ℚ) (hm : mass ≠ 0)
    (hV0 : V' 0 = 0) (hVN : V' (N + 1) = 0)
    (hV : ∀ i, i < N → V' (i + 1) = V (i + 1) - k / mass * dt * secondDifference D i)
    (hD : ∀ j, j ≤ N + 1 → D' j = D j + dt * V' j) :
    energyOf N mass k dt D' V' = energyOf N mass k dt D V := by
  have h1 := sum_by_parts V' D' hV0 N
  have h2 := sum_by_parts V' D hV0 N
  rw [hVN, zero_mul, add_zero] at h1 h2
  have h3 : stretchSum N D' - dt * ∑ j ∈ Finset.range (N + 1),
        (V' (j + 1) - V' j) * (D' (j + 1) - D' j) =
      stretchSum N D + dt * ∑ j ∈ Finset.range (N + 1),
        (V' (j + 1) - V' j) * (D (j + 1) - D j) := by
    unfold stretchSum
    rw [Finset.mul_sum, Finset.mul_sum, ← Finset.sum_sub_distrib, ← Finset.sum_add_distrib]
    apply Finset.sum_congr rfl
    intro j hj
    have hj' : j < N + 1 := Finset.mem_range.mp hj
    rw [hD (j + 1) (by omega), hD j (by omega)]
    ring
  have h4 : ∑ i ∈ Finset.range N, (mass * V' (i + 1) ^ 2
        + dt * k * (V' (i + 1) * secondDifference D i)) =
      ∑ i ∈ Finset.range N, (mass * V (i + 1) ^ 2
        - dt * k * (V (i + 1) * secondDifference D i)) := by
    apply Finset.sum_congr rfl
    intro i hi
    rw [hV i (Finset.mem_range.mp hi)]
    field_simp
    ring
  rw [Finset.sum_add_distrib, Finset.sum_sub_distrib, ← Finset.mul_sum, ← Finset.mul_sum,
    ← Finset.mul_sum, ← Finset.mul_sum] at h4
  unfold energyOf
  rw [← h1]
  rw [h2] at h3
  linear_combination h4 + k * h3

theorem stretchSum_nonneg (N : Nat) (D : Nat → ℚ) : 0 ≤ stretchSum N D :=
  Finset.sum_nonneg (fun _ _ => sq_nonneg _)

/-- The squared second differences are at most four times the squared extensions. -/
theorem sum_secondDifference_sq_le (N : Nat) (D : Nat → ℚ) :
    ∑ i ∈ Finset.range N, secondDifference D i ^ 2 ≤ 4 * stretchSum N D := by
  have h1 : ∑ i ∈ Finset.range N, secondDifference D i ^ 2 ≤
      ∑ i ∈ Finset.range N, (2 * (D (i + 1) - D i) ^ 2 + 2 * (D (i + 1 + 1) - D (i + 1)) ^ 2) := by
    apply Finset.sum_le_sum
    intro i _
    unfold secondDifference
    nlinarith [sq_nonneg ((D (i + 1) - D i) + (D (i + 1 + 1) - D (i + 1)))]
  have h2 : ∑ i ∈ Finset.range N, (D (i + 1) - D i) ^ 2 ≤ stretchSum N D := by
    unfold stretchSum
    rw [Finset.sum_range_succ]
    linarith [sq_nonneg (D (N + 1) - D N)]
  have h3 : ∑ i ∈ Finset.range N, (D (i + 1 + 1) - D (i + 1)) ^ 2 ≤ stretchSum N D := by
    unfold stretchSum
    rw [Finset.sum_range_succ']
    linarith [sq_nonneg (D (0 + 1) - D 0)]
  rw [Finset.sum_add_distrib, ← Finset.mul_sum, ← Finset.mul_sum] at h1
  linarith

/-- Below the stability bound the modified energy controls the squared extensions. -/
theorem energyOf_lower_bound (N : Nat) (mass k dt : ℚ) (D V : Nat → ℚ) (hm : 0 < mass)
    (hk : 0 < k) :
    k * (1 - k / mass * dt ^ 2) * stretchSum N D ≤ energyOf N mass k dt D V := by
  have h1 : ∑ i ∈ Finset.range N, (-(dt ^ 2 * k ^ 2 / (4 * mass)) * secondDifference D i ^ 2) ≤
      ∑ i ∈ Finset.range N,
        (mass * V (i + 1) ^ 2 - dt * k * (V (i + 1) * secondDifference D i)) := by
    apply Finset.sum_le_sum
    intro i _
    have hsq : 0 ≤ mass * (V (i + 1) - dt * k * secondDifference D i / (2 * mass)) ^ 2 :=
      mul_nonneg (le_of_lt hm) (sq_nonneg _)
    have e : mass * (V (i + 1) - dt * k * secondDifference D i / (2 * mass)) ^ 2 =
        mass * V (i + 1) ^ 2 - dt * k * (V (i + 1) * secondDifference D i)
          + dt ^ 2 * k ^ 2 / (4 * mass) * secondDifference D i ^ 2 := by
      field_simp
      ring
    linarith
  rw [← Finset.mul_sum, Finset.sum_sub_distrib, ← Finset.mul_sum, ← Finset.mul_sum] at h1
  have h2 := sum_secondDifference_sq_le N D
  have hc : 0 ≤ dt ^ 2 * k ^ 2 / (4 * mass) := by positivity
  have h3 : dt ^ 2 * k ^ 2 / (4 * mass) * ∑ i ∈ Finset.range N, secondDifference D i ^ 2 ≤
      dt ^ 2 * k ^ 2 / (4 * mass) * (4 * stretchSum N D) :=
    mul_le_mul_of_nonneg_left h2 hc
  have e2 : dt ^ 2 * k ^ 2 / (4 * mass) * (4 * stretchSum N D) =
      k * (k / mass * dt ^ 2) * stretchSum N D := by
    field_simp
    ring
  unfold energyOf
  rw [e2] at h3
  linarith

/-- A displacement is bounded by the squared extensions of the springs to its left. -/
theorem displacement_sq_le (N : Nat) (D : Nat → ℚ) (hD : D 0 = 0) (j : Nat) (hj : j ≤ N + 1) :
    D j ^ 2 ≤ (j : ℚ) * stretchSum N D := by
  have h1 : D j = ∑ i ∈ Finset.range j, (D (i + 1) - D i) := by
    rw [Finset.sum_range_sub, hD, sub_zero]
  have h2 : (∑ i ∈ Finset.range j, (D (i + 1) - D i)) ^ 2 ≤
      ((Finset.range j).card : ℚ) * ∑ i ∈ Finset.range j, (D (i + 1) - D i) ^ 2 :=
    sq_sum_le_card_mul_sum_sq
  have h3 : ∑ i ∈ Finset.range j, (D (i + 1) - D i) ^ 2 ≤ stretchSum N D := by
    unfold stretchSum
    apply Finset.sum_le_sum_of_subset_of_nonneg
    · intro x hx
      rw [Finset.mem_range] at hx ⊢
      omega
    · intro i _ _
      exact sq_nonneg _
  rw [Finset.card_range] at h2
  rw [← h1] at h2
  exact le_trans h2 (mul_le_mul_of_nonneg_left h3 (Nat.cast_nonneg j))

theorem getD_of_length_le (nodes : List Node) (i : Nat) (h : nodes.length ≤ i) :
    nodes.getD i {} = {} := by
  rw [List.getD_eq_getElem?_getD, List.getElem?_eq_none h]
  rfl

theorem stepReference_getD (N : Nat) (mass k dt : ℚ) (nodes : List Node) (i : Nat)
    (hi : i < N) :
    (stepReference N mass k dt nodes).getD i {} = referenceNode N mass k dt nodes i := by
  rw [List.getD_eq_getElem?_getD, stepReference_getElem? N mass k dt nodes i hi]
  rfl

theorem anchoredDisplacement_pred (N : Nat) (nodes : List Node) (i : Nat) (hi : i < N) :
    anchoredDisplacement N nodes ((i : Int) - 1) = displacementField nodes i := by
  unfold anchoredDisplacement
  cases i with
  | zero => simp [displacementField]
  | succ j =>
    have c : (0 : Int) ≤ ((j + 1 : Nat) : Int) - 1 ∧ ((j + 1 : Nat) : Int) - 1 < (N : Int) := by
      omega
    have e : (((j + 1 : Nat) : Int) - 1).toNat = j := by omega
    rw [if_pos c, e]
    rfl

theorem anchoredDisplacement_succ (N : Nat) (nodes : List Node) (hlen : nodes.length = N)
    (i : Nat) :
    anchoredDisplacement N nodes ((i : Int) + 1) = displacementField nodes (i + 2) := by
  unfold anchoredDisplacement
  have e : ((i : Int) + 1).toNat = i + 1 := by omega
  by_cases h : i + 1 < N
  · have c : (0 : Int) ≤ (i : Int) + 1 ∧ (i : Int) + 1 < (N : Int) := by omega
    rw [if_pos c, e]
    rfl
  · have c : ¬ ((0 : Int) ≤ (i : Int) + 1 ∧ (i : Int) + 1 < (N : Int)) := by omega
    rw [if_neg c]
    show (0 : ℚ) = (nodes.getD (i + 1) {}).lateral_displacement
    rw [getD_of_length_le nodes (i + 1) (by omega)]

/-- One reference step leaves the modified energy unchanged. -/
theorem energyOf_stepReference (N : Nat) (mass k dt : ℚ) (hm : mass ≠ 0) (nodes : List Node)
    (hlen : nodes.length = N) :
    energyOf N mass k dt (displacementField (stepReference N mass k dt nodes))
        (velocityField (stepReference N mass k dt nodes)) =
      energyOf N mass k dt (displacementField nodes) (velocityField nodes) := by
  have hlen' := stepReference_length N mass k dt nodes
  apply energyOf_step N mass k dt _ _ _ _ hm rfl
  · show ((stepReference N mass k dt nodes).getD N {}).velocity = 0
    rw [getD_of_length_le _ N (by omega)]
  · intro i hi
    show ((stepReference N mass k dt nodes).getD i {}).velocity = _
    rw [stepReference_getD N mass k dt nodes i hi]
    simp only [referenceNode, referenceVelocity, anchoredDisplacement_pred N nodes i hi,
      anchoredDisplacement_succ N nodes hlen i, secondDifference]
    show _ = (nodes.getD i {}).velocity - k / mass * dt *
      (2 * (nodes.getD i {}).lateral_displacement - displacementField nodes i
        - displacementField nodes (i + 2))
    ring
  · intro j hj
    cases j with
    | zero => simp [displacementField, velocityField]
    | succ i =>
      show ((stepReference N mass k dt nodes).getD i {}).lateral_displacement =
        (nodes.getD i {}).lateral_displacement +
          dt * ((stepReference N mass k dt nodes).getD i {}).velocity
      by_cases hi : i < N
      · rw [stepReference_getD N mass k dt nodes i hi]
        simp only [referenceNode]
        ring
      · rw [getD_of_length_le _ i (by omega), getD_of_length_le nodes i (by omega)]
        norm_num

theorem iterate_stepReference_length (N : Nat) (mass k dt : ℚ) (nodes : List Node)
    (hlen : nodes.length = N) (n : Nat) :
    ((stepReference N mass k dt)^[n] nodes).length = N := by
  cases n with
  | zero => exact hlen
  | succ c =>
    rw [Function.iterate_succ_apply']
    exact stepReference_length N mass k dt _

/-- Any number of reference steps leaves the modified energy unchanged. -/
theorem energyOf_iterate (N : Nat) (mass k dt : ℚ) (hm : mass ≠ 0) (nodes : List Node)
    (hlen : nodes.length = N) (n : Nat) :
    energyOf N mass k dt (displacementField ((stepReference N mass k dt)^[n] nodes))
        (velocityField ((stepReference N mass k dt)^[n] nodes)) =
      energyOf N mass k dt (displacementField nodes) (velocityField nodes) := by
  induction n with
  | zero => rfl
  | succ c ih =>
    rw [Function.iterate_succ_apply', energyOf_stepReference N mass k dt hm _
      (iterate_stepReference_length N mass k dt nodes hlen c), ih]

theorem stepN_eq_iterate (N : Nat) (hN : 1 ≤ N) (mass k dt : ℚ) (n : Nat) :
    ∀ (nodes : List Node), nodes.length = N →
      String.stepN N mass k dt n nodes = .ok ((stepReference N mass k dt)^[n] nodes) := by
  induction n with
  | zero =>
    intro nodes _
    rfl
  | succ c ih =>
    intro nodes hlen
    simp only [String.stepN]
    rw [step_eq_stepReference N hN mass k dt nodes hlen, ok_bind,
      ih _ (stepReference_length N mass k dt nodes), Function.iterate_succ_apply]

/-- From rest, below the stability bound, no displacement ever exceeds the initial squared
extensions by more than the factor `N / (1 - (k / mass) * dt ^ 2)`. -/
theorem displacement_sq_after_steps (N : Nat) (mass k dt : ℚ) (hm : 0 < mass) (hk : 0 < k)
    (hstab : k / mass * dt ^ 2 < 1) (nodes : List Node) (hlen : nodes.length = N)
    (hrest : ∀ i, (nodes.getD i {}).velocity = 0) (n i : Nat) (hi : i < N) :
    (((stepReference N mass k dt)^[n] nodes).getD i {}).lateral_displacement ^ 2 ≤
      (N : ℚ) * stretchSum N (displacementField nodes) / (1 - k / mass * dt ^ 2) := by
  have hpos : 0 < 1 - k / mass * dt ^ 2 := by linarith
  have hE := energyOf_iterate N mass k dt (ne_of_gt hm) nodes hlen n
  have hlow := energyOf_lower_bound N mass k dt
    (displacementField ((stepReference N mass k dt)^[n] nodes))
    (velocityField ((stepReference N mass k dt)^[n] nodes)) hm hk
  have hE0 : energyOf N mass k dt (displacementField nodes) (velocityField nodes) =
      k * stretchSum N (displacementField nodes) := by
    have hv : ∀ i, velocityField nodes (i + 1) = 0 := fun i => hrest i
    unfold energyOf
    simp only [hv]
    simp
  rw [hE, hE0] at hlow
  have hS : stretchSum N (displacementField ((stepReference N mass k dt)^[n] nodes)) ≤
      stretchSum N (displacementField nodes) / (1 - k / mass * dt ^ 2) := by
    rw [le_div_iff₀ hpos]
    have := (mul_le_mul_left hk).mp (by
      calc k * (stretchSum N (displacementField ((stepReference N mass k dt)^[n] nodes))
              * (1 - k / mass * dt ^ 2))
          = k * (1 - k / mass * dt ^ 2)
              * stretchSum N (displacementField ((stepReference N mass k dt)^[n] nodes)) := by
            ring
        _ ≤ k * stretchSum N (displacementField nodes) := hlow)
    exact this
  have hd := displacement_sq_le N (displacementField ((stepReference N mass k dt)^[n] nodes))
    rfl (i + 1) (by omega)
  have hS0 := stretchSum_nonneg N (displacementField ((stepReference N mass k dt)^[n] nodes))
  have hiN : ((i + 1 : Nat) : ℚ) ≤ (N : ℚ) := by exact_mod_cast hi
  calc (((stepReference N mass k dt)^[n] nodes).getD i {}).lateral_displacement ^ 2
      ≤ ((i + 1 : Nat) : ℚ)
          * stretchSum N (displacementField ((stepReference N mass k dt)^[n] nodes)) := hd
    _ ≤ (N : ℚ) * stretchSum N (displacementField ((stepReference N mass k dt)^[n] nodes)) :=
        mul_le_mul_of_nonneg_right hiN hS0
    _ ≤ (N : ℚ) * (stretchSum N (displacementField nodes) / (1 - k / mass * dt ^ 2)) :=
        mul_le_mul_of_nonneg_left hS (Nat.cast_nonneg N)
    _ = (N : ℚ) * stretchSum N (displacementField nodes) / (1 - k / mass * dt ^ 2) := by
        rw [mul_div_assoc]

/-- Every displacement written by `pluck` is at most `N * |strength|` in absolute value. -/
theorem pluckNode_abs_le (N : Nat) (hN : 1 ≤ N) (position strength : ℚ) (h0 : 0 ≤ position)
    (h1 : position ≤ 1) (i : Nat) (hi : i < N) :
    |(pluckNode N position strength i).lateral_displacement| ≤ (N : ℚ) * |strength| := by
  obtain ⟨_, hle⟩ := start_index_eq N hN position h0 h1
  have hNq : (1 : ℚ) ≤ (N : ℚ) := by exact_mod_cast hN
  unfold pluckNode
  by_cases c : startIndex N position ≤ i
  · rw [if_pos c]
    simp only [lerp, sub_zero, zero_add, abs_mul]
    apply mul_le_mul_of_nonneg_right _ (abs_nonneg _)
    have hiq : (i : ℚ) < (N : ℚ) := by exact_mod_cast hi
    have hsq : (startIndex N position : ℚ) ≤ (i : ℚ) := by exact_mod_cast c
    have hden : (0 : ℚ) < (N : ℚ) - startIndex N position := by linarith
    rw [abs_of_nonneg (div_nonneg (by linarith) (le_of_lt hden)), div_le_iff₀ hden]
    nlinarith
  · rw [if_neg c]
    simp only [lerp, sub_zero, zero_add, abs_mul]
    apply mul_le_mul_of_nonneg_right _ (abs_nonneg _)
    have hlt : i + 1 ≤ startIndex N position := by omega
    have hsq : ((i + 1 : Nat) : ℚ) ≤ (startIndex N position : ℚ) := by exact_mod_cast hlt
    push_cast at hsq
    have hsN : (startIndex N position : ℚ) ≤ (N : ℚ) := by
      have : startIndex N position ≤ N := by omega
      exact_mod_cast this
    have hden : (0 : ℚ) < (startIndex N position : ℚ) - i := by linarith
    have hi0 : (0 : ℚ) ≤ (i : ℚ) := Nat.cast_nonneg i
    rw [abs_of_nonneg (div_nonneg (by linarith) (le_of_lt hden)), div_le_iff₀ hden]
    nlinarith

theorem pluckReference_getD (N : Nat) (position strength : ℚ) (i : Nat) (hi : i < N) :
    (pluckReference N position strength).getD i {} = pluckNode N position strength i := by
  rw [List.getD_eq_getElem?_getD, pluckReference_getElem? N position strength i hi]
  rfl

theorem pluckReference_velocity (N : Nat) (position strength : ℚ) (i : Nat) :
    ((pluckReference N position strength).getD i {}).velocity = 0 := by
  by_cases hi : i < N
  · rw [pluckReference_getD N position strength i hi, pluckNode]
    split_ifs <;> rfl
  · rw [getD_of_length_le _ i (by rw [pluckReference_length]; omega)]

/-- The squared extensions of the profile written by `pluck`. -/
theorem stretchSum_pluckReference_le (N : Nat) (hN : 1 ≤ N) (position strength : ℚ)
    (h0 : 0 ≤ position) (h1 : position ≤ 1) :
    stretchSum N (displacementField (pluckReference N position strength)) ≤
      ((N : ℚ) + 1) * (2 * (N : ℚ) * |strength|) ^ 2 := by
  have hb : ∀ j, |displacementField (pluckReference N position strength) j| ≤
      (N : ℚ) * |strength| := by
    intro j
    have hnn : 0 ≤ (N : ℚ) * |strength| := mul_nonneg (Nat.cast_nonneg N) (abs_nonneg _)
    cases j with
    | zero => simpa [displacementField] using hnn
    | succ i =>
      show |((pluckReference N position strength).getD i {}).lateral_displacement| ≤ _
      by_cases hi : i < N
      · rw [pluckReference_getD N position strength i hi]
        exact pluckNode_abs_le N hN position strength h0 h1 i hi
      · rw [getD_of_length_le _ i (by rw [pluckReference_length]; omega)]
        simpa using hnn
  unfold stretchSum
  have hterm : ∀ j ∈ Finset.range (N + 1),
      (displacementField (pluckReference N position strength) (j + 1)
        - displacementField (pluckReference N position strength) j) ^ 2 ≤
      (2 * (N : ℚ) * |strength|) ^ 2 := by
    intro j _
    apply sq_le_sq'
    · have := abs_le.mp (hb (j + 1))
      have := abs_le.mp (hb j)
      linarith
    · have := abs_le.mp (hb (j + 1))
      have := abs_le.mp (hb j)
      linarith
  have := Finset.sum_le_card_nsmul _ _ _ hterm
  rw [Finset.card_range, nsmul_eq_mul] at this
  push_cast at this
  exact this

/-! ## Concrete runs and the first step after `pluck(0, s)` -/

/-- Node `0` one reference step after `pluck(0, s)`. -/
theorem referenceNode_pluck_zero (N : Nat) (hN : 1 ≤ N) (mass k s dt : ℚ) :
    referenceNode N mass k dt (pluckReference N 0 s) 0 =
      { velocity := -(k / mass * dt * s * (((N : ℚ) + 1) / (N : ℚ)))
        lateral_displacement := s * (1 - k / mass * dt ^ 2 * (((N : ℚ) + 1) / (N : ℚ))) } := by
  have hNq : (N : ℚ) ≠ 0 := by
    have : (0 : ℚ) < (N : ℚ) := by exact_mod_cast hN
    exact ne_of_gt this
  have hn0 : (pluckReference N 0 s).getD 0 {} = { velocity := 0, lateral_displacement := s } := by
    rw [pluckReference_getD N 0 s 0 (by omega), pluckNode, startIndex_zero, if_pos le_rfl]
    simp [lerp, hNq]
  have ha : anchoredDisplacement N (pluckReference N 0 s) (((0 : Nat) : Int) - 1) = 0 := by
    simp [anchoredDisplacement]
  have hb : anchoredDisplacement N (pluckReference N 0 s) (((0 : Nat) : Int) + 1) =
      s * (((N : ℚ) - 1) / (N : ℚ)) := by
    unfold anchoredDisplacement
    by_cases h : 1 < N
    · have c : (0 : Int) ≤ ((0 : Nat) : Int) + 1 ∧ ((0 : Nat) : Int) + 1 < (N : Int) := by omega
      have e : (((0 : Nat) : Int) + 1).toNat = 1 := by omega
      rw [if_pos c, e, pluckReference_getD N 0 s 1 h, pluckNode, startIndex_zero,
        if_pos (Nat.zero_le 1)]
      simp [lerp]
      ring
    · have c : ¬ ((0 : Int) ≤ ((0 : Nat) : Int) + 1 ∧ ((0 : Nat) : Int) + 1 < (N : Int)) := by
        omega
      have hN1 : N = 1 := by omega
      rw [if_neg c, hN1]
      norm_num
  simp only [referenceNode, referenceVelocity, ha, hb, hn0, Node.mk.injEq]
  constructor
  · field_simp
    ring
  · field_simp
    ring

/-- The two-pass reference on a three-node array, with the constants of the source. -/
theorem stepReference_three_nodes :
    stepReference 3 Node.mass String.spring_constant (1 / 1000) [⟨1, 2⟩, ⟨0, 3⟩, ⟨-1, 5⟩] =
      [⟨-999, 1001 / 1000⟩, ⟨1000, 4⟩, ⟨-7001, -2001 / 1000⟩] := by
  simp only [stepReference, List.range_succ, List.range_zero, List.nil_append, List.map_cons,
    List.map_nil, List.map_append, List.cons_append, referenceNode, referenceVelocity,
    anchoredDisplacement, Node.mass, String.spring_constant]
  have e2 : Int.toNat 2 = 2 := rfl
  norm_num [e2]

/-- The displacement of node `2` one reference step after the `N = 5` pluck at `1/2`, with the
constants of the source and `dt = 1/1000000`. -/
theorem referenceNode_five_half_two :
    referenceNode 5 Node.mass String.spring_constant (1 / 1000000)
        [⟨0, 1⟩, ⟨0, 2⟩, ⟨0, 1⟩, ⟨0, 2 / 3⟩, ⟨0, 1 / 3⟩] 2 =
      { velocity := 2 / 3, lateral_displacement := 1 + 2 / 3000000 } := by
  have e1 : Int.toNat 1 = 1 := rfl
  have e3 : Int.toNat 3 = 3 := rfl
  simp only [referenceNode, referenceVelocity, anchoredDisplacement, Node.mass,
    String.spring_constant]
  norm_num [e1, e3]

/-- A loop `for (int i = lo; i < hi; ++i)` with `hi ≤ lo` has no iterations. -/
theorem forRange_empty (lo hi : Int) (h : hi ≤ lo) (body : Int → List Node → Exec (List Node))
    (nodes : List Node) : forRange lo hi body nodes = .ok nodes := by
  have hc : (hi - lo).toNat = 0 := by omega
  simp only [forRange, hc, forLoop]

/-! ## Reversal of the node order -/

theorem reverse_getD (nodes : List Node) (i : Nat) (hi : i < nodes.length) :
    nodes.reverse.getD i {} = nodes.getD (nodes.length - 1 - i) {} := by
  rw [List.getD_eq_getElem?_getD, List.getD_eq_getElem?_getD, List.getElem?_reverse hi]

theorem anchoredDisplacement_reverse (N : Nat) (nodes : List Node) (hlen : nodes.length = N)
    (j : Int) :
    anchoredDisplacement N nodes.reverse j = anchoredDisplacement N nodes ((N : Int) - 1 - j) := by
  unfold anchoredDisplacement
  by_cases c : 0 ≤ j ∧ j < (N : Int)
  · have c2 : 0 ≤ (N : Int) - 1 - j ∧ (N : Int) - 1 - j < (N : Int) := by omega
    have e : ((N : Int) - 1 - j).toNat = nodes.length - 1 - j.toNat := by omega
    rw [if_pos c, if_pos c2, reverse_getD nodes j.toNat (by omega), e]
  · have c2 : ¬ (0 ≤ (N : Int) - 1 - j ∧ (N : Int) - 1 - j < (N : Int)) := by omega
    rw [if_neg c, if_neg c2]

theorem referenceNode_reverse (N : Nat) (mass k dt : ℚ) (nodes : List Node)
    (hlen : nodes.length = N) (i : Nat) (hi : i < N) :
    referenceNode N mass k dt nodes.reverse i = referenceNode N mass k dt nodes (N - 1 - i) := by
  have e1 : (N : Int) - 1 - ((i : Int) - 1) = ((N - 1 - i : Nat) : Int) + 1 := by omega
  have e2 : (N : Int) - 1 - ((i : Int) + 1) = ((N - 1 - i : Nat) : Int) - 1 := by omega
  have hg : nodes.reverse.getD i {} = nodes.getD (N - 1 - i) {} := by
    rw [reverse_getD nodes i (by omega), hlen]
  simp only [referenceNode, referenceVelocity, anchoredDisplacement_reverse N nodes hlen, e1, e2,
    hg, Node.mk.injEq]
  constructor <;> ring

/-- Reversing the node order commutes with the two-pass reference. -/
theorem stepReference_reverse (N : Nat) (mass k dt : ℚ) (nodes : List Node)
    (hlen : nodes.length = N) :
    stepReference N mass k dt nodes.reverse = (stepReference N mass k dt nodes).reverse := by
  apply List.ext_getElem?
  intro i
  by_cases hi : i < N
  · rw [stepReference_getElem? N mass k dt _ i hi,
      List.getElem?_reverse (by rw [stepReference_length]; exact hi), stepReference_length,
      stepReference_getElem? N mass k dt _ (N - 1 - i) (by omega),
      referenceNode_reverse N mass k dt nodes hlen i hi]
  · rw [List.getElem?_eq_none (by rw [stepReference_length]; omega),
      List.getElem?_eq_none (by rw [List.length_reverse, stepReference_length]; omega)]

/-! ## The right ramp of `pluck` is at rest -/

/-- The profile written by `pluck`, read with the two anchors, is the linear ramp
`strength * (N - j) / (N - startIndex)` from `startIndex` up to the right anchor `N`. -/
theorem anchoredDisplacement_pluck_right (N : Nat) (position strength : ℚ) (j : Nat)
    (hs : startIndex N position ≤ j) (hj : j ≤ N) :
    anchoredDisplacement N (pluckReference N position strength) (j : Int) =
      strength * (((N : ℚ) - j) / ((N : ℚ) - startIndex N position)) := by
  unfold anchoredDisplacement
  by_cases h : j < N
  · have c : (0 : Int) ≤ (j : Int) ∧ (j : Int) < (N : Int) := by omega
    rw [if_pos c, Int.toNat_ofNat, pluckReference_getD N position strength j h, pluckNode,
      if_pos hs]
    simp only [lerp]
    ring
  · have c : ¬ ((0 : Int) ≤ (j : Int) ∧ (j : Int) < (N : Int)) := by omega
    have e : j = N := by omega
    rw [if_neg c, e]
    simp

/-- Right of `startIndex`, one reference step leaves the node written by `pluck` alone. -/
theorem referenceNode_pluck_right (N : Nat) (mass k dt position strength : ℚ) (i : Nat)
    (hs : startIndex N position < i) (hi : i < N) :
    referenceNode N mass k dt (pluckReference N position strength) i =
      pluckNode N position strength i := by
  have hlt : startIndex N position < N := by omega
  have e1 : (i : Int) - 1 = ((i - 1 : Nat) : Int) := by omega
  have e2 : (i : Int) + 1 = ((i + 1 : Nat) : Int) := by omega
  have hden : ((N : ℚ) - startIndex N position) ≠ 0 := by
    have : (startIndex N position : ℚ) < (N : ℚ) := by exact_mod_cast hlt
    exact ne_of_gt (by linarith)
  have hc1 : ((i - 1 : Nat) : ℚ) = (i : ℚ) - 1 := by
    rw [Nat.cast_sub (by omega)]
    simp
  have hzero : anchoredDisplacement N (pluckReference N position strength) ((i : Int) - 1)
      + anchoredDisplacement N (pluckReference N position strength) ((i : Int) + 1)
      - 2 * (pluckNode N position strength i).lateral_displacement = 0 := by
    rw [e1, e2, anchoredDisplacement_pluck_right N position strength (i - 1) (by omega)
      (by omega), anchoredDisplacement_pluck_right N position strength (i + 1) (by omega)
      (by omega), pluckNode, if_pos (by omega), hc1]
    simp only [lerp]
    push_cast
    field_simp
    ring
  have hv : (pluckNode N position strength i).velocity = 0 := by
    rw [pluckNode, if_pos (by omega)]
  simp only [referenceNode, referenceVelocity, pluckReference_getD N position strength i hi,
    hzero, hv]
  rw [pluckNode, if_pos (by omega)]
  simp

/-! ## `pluck` and `step` are linear -/

theorem scaleNodes_length (a : ℚ) (nodes : List Node) :
    (scaleNodes a nodes).length = nodes.length := by
  simp [scaleNodes]

theorem scaleNodes_getD (a : ℚ) (nodes : List Node) (i : Nat) :
    (scaleNodes a nodes).getD i {} =
      { velocity := a * (nodes.getD i {}).velocity
        lateral_displacement := a * (nodes.getD i {}).lateral_displacement } := by
  have h := List.getD_map nodes ({} : Node) (n := i) (fun n : Node =>
    ({ velocity := a * n.velocity, lateral_displacement := a * n.lateral_displacement } : Node))
  simp only [mul_zero] at h
  exact h

theorem anchoredDisplacement_scaleNodes (N : Nat) (a : ℚ) (nodes : List Node) (j : Int) :
    anchoredDisplacement N (scaleNodes a nodes) j = a * anchoredDisplacement N nodes j := by
  unfold anchoredDisplacement
  split_ifs
  · rw [scaleNodes_getD]
  · simp

theorem pluckReference_scale (N : Nat) (position a s : ℚ) :
    pluckReference N position (a * s) = scaleNodes a (pluckReference N position s) := by
  unfold pluckReference scaleNodes
  rw [List.map_map]
  apply List.map_congr_left
  intro i _
  simp only [Function.comp, pluckNode, lerp]
  split_ifs
  · simp only [Node.mk.injEq, mul_zero, true_and]
    ring
  · simp only [Node.mk.injEq, mul_zero, true_and]
    ring

theorem stepReference_scale (N : Nat) (mass k dt a : ℚ) (nodes : List Node) :
    stepReference N mass k dt (scaleNodes a nodes) =
      scaleNodes a (stepReference N mass k dt nodes) := by
  unfold stepReference scaleNodes
  rw [List.map_map]
  apply List.map_congr_left
  intro i _
  have h := scaleNodes_getD a nodes i
  unfold scaleNodes at h
  have h2 := anchoredDisplacement_scaleNodes N a nodes
  unfold scaleNodes at h2
  simp only [Function.comp, referenceNode, referenceVelocity, h, h2, Node.mk.injEq]
  constructor <;> ring

theorem iterate_stepReference_scale (N : Nat) (mass k dt a : ℚ) (n : Nat) :
    ∀ nodes : List Node, (stepReference N mass k dt)^[n] (scaleNodes a nodes) =
      scaleNodes a ((stepReference N mass k dt)^[n] nodes) := by
  induction n with
  | zero =>
    intro nodes
    rfl
  | succ c ih =>
    intro nodes
    rw [Function.iterate_succ_apply, Function.iterate_succ_apply, stepReference_scale, ih]

/-! ## The modified energy of an array -/

theorem anchoredDisplacement_natCast (N : Nat) (nodes : List Node) (hlen : nodes.length = N)
    (j : Nat) : anchoredDisplacement N nodes (j : Int) = displacementField nodes (j + 1) := by
  unfold anchoredDisplacement
  by_cases h : j < N
  · have c : (0 : Int) ≤ (j : Int) ∧ (j : Int) < (N : Int) := by omega
    rw [if_pos c, Int.toNat_ofNat]
    rfl
  · have c : ¬ ((0 : Int) ≤ (j : Int) ∧ (j : Int) < (N : Int)) := by omega
    rw [if_neg c]
    show (0 : ℚ) = (nodes.getD j {}).lateral_displacement
    rw [getD_of_length_le nodes j (by omega)]

theorem anchoredDisplacement_natCast_pred (N : Nat) (nodes : List Node)
    (hlen : nodes.length = N) (j : Nat) :
    anchoredDisplacement N nodes ((j : Int) - 1) = displacementField nodes j := by
  cases j with
  | zero => simp [anchoredDisplacement, displacementField]
  | succ i =>
    have e : (((i + 1 : Nat) : Int) - 1) = (i : Int) := by omega
    rw [e, anchoredDisplacement_natCast N nodes hlen i]

/-- The modified energy of an array is the modified energy of its two fields. -/
theorem modifiedEnergy_eq_energyOf (N : Nat) (mass k dt : ℚ) (nodes : List Node)
    (hlen : nodes.length = N) :
    modifiedEnergy N mass k dt nodes =
      energyOf N mass k dt (displacementField nodes) (velocityField nodes) := by
  unfold modifiedEnergy energyOf stretchSum
  have e1 : ∀ i : Nat, (i : Int) + 1 = ((i + 1 : Nat) : Int) := fun i => by omega
  simp only [anchoredDisplacement_natCast_pred N nodes hlen, e1,
    anchoredDisplacement_natCast N nodes hlen, secondDifference]
  rfl

/-- The modified energy of a three-node array, with the constants of the source. -/
theorem modifiedEnergy_three_nodes :
    modifiedEnergy 3 Node.mass String.spring_constant (1 / 1000) [⟨1, 2⟩, ⟨0, 3⟩, ⟨-1, 5⟩] =
      17003001 / 5 := by
  have e1 : Int.toNat 1 = 1 := rfl
  have e2 : Int.toNat 2 = 2 := rfl
  simp only [modifiedEnergy, Finset.sum_range_succ, Finset.sum_range_zero, anchoredDisplacement,
    Node.mass, String.spring_constant]
  norm_num [e1, e2]

/-! ## Rounding to binary32 -/

theorem roundHalfEven_le (q : ℚ) (n : Int) (h : q ≤ n) : roundHalfEven q ≤ n := by
  have hf : ((⌊q⌋ : Int) : ℚ) ≤ q := Int.floor_le q
  have h1 : ⌊q⌋ ≤ n := by
    have : ((⌊q⌋ : Int) : ℚ) ≤ (n : ℚ) := le_trans hf h
    exact_mod_cast this
  have h2 : ¬ (q - ⌊q⌋ < 1 / 2) → ⌊q⌋ + 1 ≤ n := by
    intro hc
    have : ((⌊q⌋ : Int) : ℚ) < (n : ℚ) := by linarith [not_lt.mp hc]
    have : ⌊q⌋ < n := by exact_mod_cast this
    omega
  unfold roundHalfEven
  split_ifs with c1 c2 c3
  · exact h1
  · exact h2 c1
  · exact h1
  · exact h2 c1

theorem roundHalfEven_nonneg (q : ℚ) (h : 0 ≤ q) : 0 ≤ roundHalfEven q := by
  have h1 : 0 ≤ ⌊q⌋ := Int.floor_nonneg.mpr h
  unfold roundHalfEven
  split_ifs <;> omega

theorem roundHalfEven_intCast (n : Int) : roundHalfEven (n : ℚ) = n := by
  unfold roundHalfEven
  rw [Int.floor_intCast, sub_self, if_pos (by norm_num)]

theorem binary32Ulp_pos (x : ℚ) : 0 < binary32Ulp x := by
  unfold binary32Ulp
  positivity

theorem roundBinary32_nonneg (x : ℚ) (h : 0 ≤ x) : 0 ≤ roundBinary32 x := by
  unfold roundBinary32
  have h1 : 0 ≤ roundHalfEven (x / binary32Ulp x) :=
    roundHalfEven_nonneg _ (div_nonneg h (le_of_lt (binary32Ulp_pos x)))
  have h2 : (0 : ℚ) ≤ (roundHalfEven (x / binary32Ulp x) : ℚ) := by exact_mod_cast h1
  exact mul_nonneg h2 (le_of_lt (binary32Ulp_pos x))

/-- A value that is a whole multiple of the spacing around it is not changed. -/
theorem roundBinary32_of_multiple (x : ℚ) (m : Int) (h : x = (m : ℚ) * binary32Ulp x) :
    roundBinary32 x = x := by
  have hu := binary32Ulp_pos x
  have e : x / binary32Ulp x = (m : ℚ) := by
    rw [div_eq_iff (ne_of_gt hu)]
    exact h
  unfold roundBinary32
  rw [e, roundHalfEven_intCast]
  exact h.symm

/-- A value below a whole multiple of the spacing around it is not rounded above it. -/
theorem roundBinary32_le_of_multiple (x y : ℚ) (m : Int) (hxy : x ≤ y)
    (h : y = (m : ℚ) * binary32Ulp x) : roundBinary32 x ≤ y := by
  have hu := binary32Ulp_pos x
  have e : x / binary32Ulp x ≤ (m : ℚ) := by
    rw [div_le_iff₀ hu, ← h]
    exact hxy
  have h1 := roundHalfEven_le _ m e
  have h2 : (roundHalfEven (x / binary32Ulp x) : ℚ) ≤ (m : ℚ) := by exact_mod_cast h1
  unfold roundBinary32
  rw [h]
  exact mul_le_mul_of_nonneg_right h2 (le_of_lt hu)

/-- The spacing around a positive value below `2 ^ 24` is `2 ^ (-k)` for a natural `k`. -/
theorem binary32Ulp_of_lt (x : ℚ) (h0 : 0 < x) (h : x < 2 ^ 24) :
    ∃ k : Nat, binary32Ulp x = ((2 : ℚ) ^ k)⁻¹ := by
  have hlog : Int.log 2 |x| < 24 := by
    rw [abs_of_pos h0]
    apply (Int.lt_zpow_iff_log_lt (by norm_num) h0).mp
    norm_num
    exact h
  have ht : max (Int.log 2 |x| - 23) (-149) ≤ 0 := by omega
  obtain ⟨k, hk⟩ : ∃ k : Nat, max (Int.log 2 |x| - 23) (-149) = -(k : Int) :=
    ⟨(-(max (Int.log 2 |x| - 23) (-149))).toNat, by omega⟩
  refine ⟨k, ?_⟩
  unfold binary32Ulp
  rw [hk, zpow_neg, zpow_natCast]

/-- An integer up to `2 ^ 24` is a binary32 value. -/
theorem roundBinary32_natCast (n : Nat) (h : n ≤ 2 ^ 24) : roundBinary32 (n : ℚ) = n := by
  rcases Nat.eq_zero_or_pos n with h0 | h0
  · subst h0
    apply roundBinary32_of_multiple _ 0
    simp
  rcases Nat.lt_or_ge n (2 ^ 24) with hlt | hge
  · have hq0 : (0 : ℚ) < (n : ℚ) := by exact_mod_cast h0
    have hq : (n : ℚ) < 2 ^ 24 := by exact_mod_cast hlt
    obtain ⟨k, hk⟩ := binary32Ulp_of_lt (n : ℚ) hq0 hq
    apply roundBinary32_of_multiple _ ((n * 2 ^ k : Nat) : Int)
    rw [hk]
    push_cast
    field_simp
  · have e : n = 2 ^ 24 := le_antisymm h hge
    subst e
    have hu : binary32Ulp ((2 ^ 24 : Nat) : ℚ) = 2 := by
      unfold binary32Ulp
      have hl : Int.log 2 |((2 ^ 24 : Nat) : ℚ)| = 24 := by
        rw [abs_of_pos (by positivity), Int.log_natCast, Nat.log_pow (by norm_num) 24]
        rfl
      rw [hl]
      norm_num
    apply roundBinary32_of_multiple _ ((2 ^ 23 : Nat) : Int)
    rw [hu]
    push_cast
    norm_num

/-- A non-negative value below an integer `M ≤ 2 ^ 24` is not rounded above `M`. -/
theorem roundBinary32_le_natCast (x : ℚ) (M : Nat) (hM : M ≤ 2 ^ 24) (h0 : 0 ≤ x)
    (hx : x ≤ M) : roundBinary32 x ≤ M := by
  rcases eq_or_lt_of_le h0 with hz | hpos
  · rw [← hz]
    have : roundBinary32 0 = 0 := by
      apply roundBinary32_of_multiple _ 0
      simp
    rw [this]
    exact Nat.cast_nonneg M
  have hMq : (M : ℚ) ≤ 2 ^ 24 := by exact_mod_cast hM
  rcases lt_or_le x (2 ^ 24) with hlt | hge
  · obtain ⟨k, hk⟩ := binary32Ulp_of_lt x hpos hlt
    apply roundBinary32_le_of_multiple x _ ((M * 2 ^ k : Nat) : Int) hx
    rw [hk]
    push_cast
    field_simp
  · have e : x = (M : ℚ) := le_antisymm hx (le_trans hMq hge)
    rw [e, roundBinary32_natCast M hM]

theorem roundHalfEven_up (q : ℚ) (n : Int) (h1 : (n : ℚ) + 1 / 2 < q) (h2 : q < (n : ℚ) + 1) :
    roundHalfEven q = n + 1 := by
  have hf : ⌊q⌋ = n := Int.floor_eq_iff.mpr ⟨by linarith, h2⟩
  unfold roundHalfEven
  rw [hf, if_neg (by linarith), if_pos (by linarith)]

theorem roundHalfEven_tie_odd (q : ℚ) (n : Int) (h : q = (n : ℚ) + 1 / 2) (hn : n % 2 = 1) :
    roundHalfEven q = n + 1 := by
  have hf : ⌊q⌋ = n := Int.floor_eq_iff.mpr ⟨by linarith, by linarith⟩
  unfold roundHalfEven
  rw [hf, if_neg (by linarith), if_neg (by linarith), if_neg (by omega)]

/-- The spacing around a value in the binade `2 ^ e ≤ x < 2 ^ (e + 1)`, `e ≥ -126`. -/
theorem binary32Ulp_of_binade (x : ℚ) (e : Int) (h1 : (2 : ℚ) ^ e ≤ x) (h2 : x < (2 : ℚ) ^ (e + 1))
    (he : -126 ≤ e) : binary32Ulp x = (2 : ℚ) ^ (e - 23) := by
  have hpos : 0 < x := lt_of_lt_of_le (by positivity) h1
  have hl : Int.log 2 |x| = e := by
    rw [abs_of_pos hpos]
    apply le_antisymm
    · have := (Int.lt_zpow_iff_log_lt (b := 2) (by norm_num) hpos (x := e + 1)).mp
        (by exact_mod_cast h2)
      omega
    · exact (Int.zpow_le_iff_le_log (b := 2) (by norm_num) hpos).mp (by exact_mod_cast h1)
  unfold binary32Ulp
  rw [hl, max_eq_left (by omega)]

/-- The product `float(10) * 0.7f` rounds to `7`. -/
theorem roundBinary32_ten_times : roundBinary32 (10 * (11744051 / 16777216)) = 7 := by
  have hu : binary32Ulp (10 * (11744051 / 16777216)) = (2 : ℚ) ^ ((2 : Int) - 23) :=
    binary32Ulp_of_binade _ 2 (by norm_num) (by norm_num) (by norm_num)
  have hr : roundHalfEven (10 * (11744051 / 16777216) / (2 : ℚ) ^ ((2 : Int) - 23)) =
      14680063 + 1 :=
    roundHalfEven_up _ 14680063 (by norm_num) (by norm_num)
  unfold roundBinary32
  rw [hu, hr]
  norm_num

/-- The conversion `float(33554438)` rounds up to `33554440`. -/
theorem roundBinary32_large : roundBinary32 33554438 = 33554440 := by
  have hu : binary32Ulp 33554438 = (2 : ℚ) ^ ((25 : Int) - 23) :=
    binary32Ulp_of_binade _ 25 (by norm_num) (by norm_num) (by norm_num)
  have hr : roundHalfEven (33554438 / (2 : ℚ) ^ ((25 : Int) - 23)) = 8388609 + 1 :=
    roundHalfEven_tie_odd _ 8388609 (by norm_num) (by norm_num)
  unfold roundBinary32
  rw [hu, hr]
  norm_num

theorem roundBinary32_large_fixed : roundBinary32 33554440 = 33554440 := by
  have hu : binary32Ulp 33554440 = (2 : ℚ) ^ ((25 : Int) - 23) :=
    binary32Ulp_of_binade _ 25 (by norm_num) (by norm_num) (by norm_num)
  apply roundBinary32_of_multiple _ 8388610
  rw [hu]
  norm_num

theorem roundHalfEven_ge (q : ℚ) (n : Int) (h : (n : ℚ) ≤ q) : n ≤ roundHalfEven q := by
  have h1 : n ≤ ⌊q⌋ := Int.le_floor.mpr h
  unfold roundHalfEven
  split_ifs <;> omega

/-- A value above a whole multiple of the spacing around it is not rounded below it. -/
theorem roundBinary32_ge_of_multiple (x y : ℚ) (m : Int) (hxy : y ≤ x)
    (h : y = (m : ℚ) * binary32Ulp x) : y ≤ roundBinary32 x := by
  have hu := binary32Ulp_pos x
  have e : (m : ℚ) ≤ x / binary32Ulp x := by
    rw [le_div_iff₀ hu, ← h]
    exact hxy
  have h1 := roundHalfEven_ge _ m e
  have h2 : (m : ℚ) ≤ (roundHalfEven (x / binary32Ulp x) : ℚ) := by exact_mod_cast h1
  unfold roundBinary32
  rw [h]
  exact mul_le_mul_of_nonneg_right h2 (le_of_lt hu)

/-- A value above an integer `M`, and below `2 ^ 24`, is not rounded below `M`. -/
theorem roundBinary32_ge_natCast (x : ℚ) (M : Nat) (hx : (M : ℚ) ≤ x) (hlt : x < 2 ^ 24) :
    (M : ℚ) ≤ roundBinary32 x := by
  have hM0 : (0 : ℚ) ≤ (M : ℚ) := Nat.cast_nonneg M
  rcases eq_or_lt_of_le (le_trans hM0 hx) with hz | hpos
  · have : (M : ℚ) = 0 := le_antisymm (by rw [hz]; exact hx) hM0
    rw [this]
    exact roundBinary32_nonneg x (by rw [← hz])
  obtain ⟨k, hk⟩ := binary32Ulp_of_lt x hpos hlt
  apply roundBinary32_ge_of_multiple x _ ((M * 2 ^ k : Nat) : Int) hx
  rw [hk]
  push_cast
  field_simp

/-! ## The start index of the program -/

theorem truncToInt_of_nonneg (x : ℚ) (h : 0 ≤ x) : truncToInt x = ⌊x⌋ := by
  unfold truncToInt
  rw [if_pos h]

theorem start_index_binary32_eq (N : Nat) (hN : 1 ≤ N) (hfloat : N ≤ 2 ^ 24 + 1)
    (position : ℚ) :
    String.start_index roundBinary32 N position =
      truncToInt (roundBinary32 (((N - 1 : Nat) : ℚ) * position)) := by
  have e : ((((N : Int) - 1 : Int)) : ℚ) = ((N - 1 : Nat) : ℚ) := by
    rw [Nat.cast_sub hN]
    push_cast
    rfl
  unfold String.start_index
  rw [e, roundBinary32_natCast (N - 1) (by omega)]

/-- For `N ≤ 2 ^ 24 + 1`, where `float(N - 1)` is exact, the start index of the program lies
in `0..N-1`, and it is `floor((N - 1) * position)` or the next integer. -/
theorem start_index_binary32 (N : Nat) (hN : 1 ≤ N) (hfloat : N ≤ 2 ^ 24 + 1) (position : ℚ)
    (h0 : 0 ≤ position) (h1 : position ≤ 1) :
    ∃ start : Nat, String.start_index roundBinary32 N position = (start : Int) ∧
      start ≤ N - 1 ∧ (start = startIndex N position ∨ start = startIndex N position + 1) := by
  have hM : N - 1 ≤ 2 ^ 24 := by omega
  have hx0 : 0 ≤ ((N - 1 : Nat) : ℚ) * position := mul_nonneg (Nat.cast_nonneg _) h0
  have hx1 : ((N - 1 : Nat) : ℚ) * position ≤ ((N - 1 : Nat) : ℚ) := by
    have : (0 : ℚ) ≤ ((N - 1 : Nat) : ℚ) := Nat.cast_nonneg _
    nlinarith
  have hy0 := roundBinary32_nonneg _ hx0
  have hy1 := roundBinary32_le_natCast _ (N - 1) hM hx0 hx1
  have hf0 : 0 ≤ ⌊roundBinary32 (((N - 1 : Nat) : ℚ) * position)⌋ := Int.floor_nonneg.mpr hy0
  have hf1 : ⌊roundBinary32 (((N - 1 : Nat) : ℚ) * position)⌋ ≤ ((N - 1 : Nat) : Int) := by
    have : ((⌊roundBinary32 (((N - 1 : Nat) : ℚ) * position)⌋ : Int) : ℚ) ≤
        (((N - 1 : Nat) : Int) : ℚ) := by
      push_cast
      exact le_trans (Int.floor_le _) hy1
    exact_mod_cast this
  have hsi : startIndex N position = ⌊((N - 1 : Nat) : ℚ) * position⌋.toNat := by
    unfold startIndex
    rw [Nat.cast_sub hN]
    simp
  have hfl0 : 0 ≤ ⌊((N - 1 : Nat) : ℚ) * position⌋ := Int.floor_nonneg.mpr hx0
  have hflN : ⌊((N - 1 : Nat) : ℚ) * position⌋ ≤ ((N - 1 : Nat) : Int) := by
    have : ((⌊((N - 1 : Nat) : ℚ) * position⌋ : Int) : ℚ) ≤ (((N - 1 : Nat) : Int) : ℚ) := by
      push_cast
      exact le_trans (Int.floor_le _) hx1
    exact_mod_cast this
  -- the rounded product lies between the floor of the exact product and the next integer
  have hlow : ⌊((N - 1 : Nat) : ℚ) * position⌋ ≤
      ⌊roundBinary32 (((N - 1 : Nat) : ℚ) * position)⌋ := by
    rcases eq_or_lt_of_le hx1 with heq | hlt
    · rw [heq, roundBinary32_natCast (N - 1) hM]
    · apply Int.le_floor.mpr
      have hcast : ((⌊((N - 1 : Nat) : ℚ) * position⌋ : Int) : ℚ) =
          ((⌊((N - 1 : Nat) : ℚ) * position⌋.toNat : Nat) : ℚ) := by
        have := Int.toNat_of_nonneg hfl0
        exact_mod_cast this.symm
      rw [hcast]
      apply roundBinary32_ge_natCast
      · rw [← hcast]
        exact Int.floor_le _
      · have : ((N - 1 : Nat) : ℚ) ≤ 2 ^ 24 := by exact_mod_cast hM
        linarith
  have hhigh : ⌊roundBinary32 (((N - 1 : Nat) : ℚ) * position)⌋ ≤
      ⌊((N - 1 : Nat) : ℚ) * position⌋ + 1 := by
    by_cases hc : ((N - 1 : Nat) : Int) ≤ ⌊((N - 1 : Nat) : ℚ) * position⌋ + 1
    · exact le_trans hf1 hc
    have h2 : (((⌊((N - 1 : Nat) : ℚ) * position⌋ + 1).toNat : Nat) : ℚ) =
        ((⌊((N - 1 : Nat) : ℚ) * position⌋ + 1 : Int) : ℚ) := by
      have := Int.toNat_of_nonneg (by omega : 0 ≤ ⌊((N - 1 : Nat) : ℚ) * position⌋ + 1)
      exact_mod_cast this
    have hle : roundBinary32 (((N - 1 : Nat) : ℚ) * position) ≤
        (((⌊((N - 1 : Nat) : ℚ) * position⌋ + 1).toNat : Nat) : ℚ) := by
      apply roundBinary32_le_natCast _ _ _ hx0
      · rw [h2]
        push_cast
        exact le_of_lt (Int.lt_floor_add_one _)
      · omega
    have : ((⌊roundBinary32 (((N - 1 : Nat) : ℚ) * position)⌋ : Int) : ℚ) ≤
        ((⌊((N - 1 : Nat) : ℚ) * position⌋ + 1 : Int) : ℚ) := by
      rw [← h2]
      exact le_trans (Int.floor_le _) hle
    exact_mod_cast this
  refine ⟨⌊roundBinary32 (((N - 1 : Nat) : ℚ) * position)⌋.toNat, ?_, ?_, ?_⟩
  · rw [start_index_binary32_eq N hN hfloat, truncToInt_of_nonneg _ hy0,
      Int.toNat_of_nonneg hf0]
  · omega
  · rw [hsi]
    omega

theorem start_index_binary32_five_half : String.start_index roundBinary32 5 (1 / 2) = 2 := by
  rw [start_index_binary32_eq 5 (by norm_num) (by norm_num)]
  have e : (((5 - 1 : Nat) : ℚ)) * (1 / 2) = ((2 : Nat) : ℚ) := by norm_num
  rw [e, roundBinary32_natCast 2 (by norm_num), truncToInt_of_nonneg _ (by norm_num)]
  norm_num

/-- The start index of the program for `N = 11` and `position = 0.7f`. -/
theorem start_index_binary32_eleven :
    String.start_index roundBinary32 11 (11744051 / 16777216) = 7 := by
  rw [start_index_binary32_eq 11 (by norm_num) (by norm_num)]
  have e : (((11 - 1 : Nat) : ℚ)) * (11744051 / 16777216) = 10 * (11744051 / 16777216) := by
    norm_num
  rw [e, roundBinary32_ten_times, truncToInt_of_nonneg _ (by norm_num)]
  norm_num

/-- The exact `floor((N - 1) * position)` for `N = 11` and `position = 0.7f`. -/
theorem startIndex_eleven : startIndex 11 (11744051 / 16777216) = 6 := by
  unfold startIndex
  have : ⌊(((11 : Nat) : ℚ) - 1) * (11744051 / 16777216)⌋ = 6 := by
    rw [Int.floor_eq_iff]
    constructor <;> norm_num
  rw [this]
  rfl

/-- The start index of the program for `N = 2 ^ 25 + 7` and `position = 1`: `float(N - 1)`
rounds up to `N + 1`. -/
theorem start_index_binary32_large :
    String.start_index roundBinary32 33554439 1 = ((33554440 : Nat) : Int) := by
  unfold String.start_index
  have e : ((((33554439 : Nat) : Int) - 1 : Int) : ℚ) = 33554438 := by norm_num
  rw [e, roundBinary32_large, mul_one, roundBinary32_large_fixed,
    truncToInt_of_nonneg _ (by norm_num)]
  have : ⌊(33554440 : ℚ)⌋ = 33554440 := by
    rw [Int.floor_eq_iff]
    constructor <;> norm_num
  rw [this]
  rfl

/-! ## A start index past the end of the array -/

theorem forLoop_add (body : Int → List Node → Exec (List Node)) (a b : Nat) :
    ∀ (i : Int) (nodes : List Node),
      forLoop body (a + b) i nodes = forLoop body a i nodes >>= forLoop body b (i + (a : Int)) := by
  induction a with
  | zero =>
    intro i nodes
    simp only [Nat.zero_add, forLoop, ok_bind, Nat.cast_zero, add_zero]
  | succ c ih =>
    intro i nodes
    have e : c + 1 + b = (c + b) + 1 := by omega
    have e2 : i + ((c + 1 : Nat) : Int) = i + 1 + (c : Int) := by push_cast; ring
    rw [e, e2]
    simp only [forLoop]
    rw [bind_assoc]
    congr 1
    funext nodes'
    exact ih (i + 1) nodes'

theorem error_bind {α β : Type} (e : Fault × List Node) (g : α → Exec β) :
    ((Except.error e : Exec α) >>= g) = Except.error e := rfl

/-- When the start index is past the end of the array, the second loop of `pluck` writes the
whole array and then stops at `nodes[N]`. -/
theorem pluck_loop2_overrun (N start : Nat) (hs : N < start) (strength : ℚ) (g : Nat → Node) :
    forRange 0 (start : Int) (fun i nodes => do
        let distance_to_start ←
          checkedDiv nodes (((start : Int)) : ℚ) (((start : Int) - i : Int) : ℚ)
        let nodes ← setDisplacement nodes i (lerp 0 strength distance_to_start)
        setVelocity nodes i 0) (tabulate N g) =
    .error (Fault.outOfRange, tabulate N (fun i => leftNode start strength i)) := by
  have hcount : ((start : Int) - 0).toNat = N + (start - N - 1 + 1) := by omega
  unfold forRange
  rw [hcount, forLoop_add]
  have h0 : (0 : Int) = ((0 : Nat) : Int) := rfl
  rw [h0, forLoop_tabulate _ (fun i _ => leftNode start strength i) (fun _ => True) 0 N ?_ N 0 g
    (le_refl 0) (by omega) trivial]
  · have htab : (tabulate N fun i => if 0 ≤ i ∧ i < 0 + N then leftNode start strength i else g i)
        = tabulate N (fun i => leftNode start strength i) := by
      apply tabulate_congr
      intro i hi
      have c : 0 ≤ i ∧ i < 0 + N := by omega
      rw [if_pos c]
    rw [htab, ok_bind]
    have hden : ((((start : Int) - (((0 : Nat) : Int) + (N : Int)) : Int)) : ℚ) ≠ 0 := by
      have : (start : Int) - (((0 : Nat) : Int) + (N : Int)) ≠ 0 := by omega
      exact_mod_cast this
    have hidx : (0 : Int) ≤ ((0 : Nat) : Int) + (N : Int) := by omega
    have hnone : (tabulate N fun i => leftNode start strength i)[
        (((0 : Nat) : Int) + (N : Int)).toNat]? = none := by
      rw [tabulate_getElem?, if_neg (by omega)]
    simp only [forLoop, checkedDiv, hden, if_false, ok_bind, setDisplacement, readNode, hidx,
      if_true, hnone, error_bind]
  · intro i f _ hhi _
    refine ⟨?_, trivial⟩
    have b0 : (0 : Int) ≤ (i : Int) := by omega
    have b1 : (i : Int).toNat < N := by omega
    have e3 : (i : Int).toNat = i := by omega
    have hden : ((((start : Int) - (i : Int) : Int)) : ℚ) ≠ 0 := by
      have : (start : Int) - (i : Int) ≠ 0 := by omega
      exact_mod_cast this
    simp only [checkedDiv, hden, if_false, ok_bind, setDisplacement_tabulate _ _ b0 b1,
      setVelocity_tabulate _ _ b0 b1, e3, updateTable_idem, updateTable_same]
    congr 2
    simp only [leftNode]
    push_cast
    rfl

/-- Whatever the rounding, when the start index is past the end of the array, `pluck` stops at
an out-of-range index. -/
theorem pluck_overrun (toFloat : ℚ → ℚ) (N : Nat) (position strength : ℚ)
    (h0 : 0 ≤ position) (h1 : position ≤ 1) (start : Nat)
    (hs : String.start_index toFloat N position = (start : Int)) (hgt : N < start)
    (nodes : List Node) (hlen : nodes.length = N) :
    String.pluck toFloat N position strength nodes =
      .error (Fault.outOfRange, tabulate N (fun i => leftNode start strength i)) := by
  have hc : ¬ ¬ (position ≥ 0 ∧ position ≤ 1) := not_not.mpr ⟨h0, h1⟩
  have htab : nodes = tabulate N (fun i => nodes.getD i {}) := by
    rw [← hlen]
    exact eq_tabulate nodes
  unfold String.pluck
  simp only [hc, if_false, hs]
  rw [forRange_empty _ _ (by omega), ok_bind, htab]
  exact pluck_loop2_overrun N start hgt strength _

/-- The program, for `N = 2 ^ 25 + 7`, stops `pluck(1.0, strength)` at an out-of-range index. -/
theorem pluck_binary32_large (strength : ℚ) (nodes : List Node)
    (hlen : nodes.length = 33554439) :
    String.pluck roundBinary32 33554439 1 strength nodes =
      .error (Fault.outOfRange, tabulate 33554439 (fun i => leftNode 33554440 strength i)) :=
  pluck_overrun roundBinary32 33554439 1 strength zero_le_one le_rfl 33554440
    start_index_binary32_large (by norm_num) nodes hlen

/-! ## The loops of `pluck` do not raise the assertion fault -/

theorem readNode_fault (nodes : List Node) (i : Int) (e : Fault × List Node)
    (h : readNode nodes i = .error e) : e.1 ≠ Fault.assertion := by
  unfold readNode at h
  split_ifs at h
  · split at h
    · cases h
    · cases h
      exact Fault.noConfusion
  · cases h
    exact Fault.noConfusion

theorem writeNode_fault (nodes : List Node) (i : Int) (n : Node) (e : Fault × List Node)
    (h : writeNode nodes i n = .error e) : e.1 ≠ Fault.assertion := by
  unfold writeNode at h
  split_ifs at h
  cases h
  exact Fault.noConfusion

theorem checkedDiv_fault (nodes : List Node) (a b : ℚ) (e : Fault × List Node)
    (h : checkedDiv nodes a b = .error e) : e.1 ≠ Fault.assertion := by
  unfold checkedDiv at h
  split_ifs at h
  cases h
  exact Fault.noConfusion

theorem bind_fault {α β : Type} (x : Exec α) (g : α → Exec β) (e : Fault × List Node)
    (hx : ∀ e, x = .error e → e.1 ≠ Fault.assertion)
    (hg : ∀ a e, g a = .error e → e.1 ≠ Fault.assertion)
    (h : (x >>= g) = .error e) : e.1 ≠ Fault.assertion := by
  cases x with
  | error e' =>
    have : e' = e := by
      have h' : (Except.error e' : Exec β) = .error e := h
      cases h'
      rfl
    rw [← this]
    exact hx e' rfl
  | ok a => exact hg a e h

theorem setDisplacement_fault (nodes : List Node) (i : Int) (x : ℚ) (e : Fault × List Node)
    (h : setDisplacement nodes i x = .error e) : e.1 ≠ Fault.assertion :=
  bind_fault _ _ e (fun e he => readNode_fault nodes i e he)
    (fun _ e he => writeNode_fault nodes i _ e he) h

theorem setVelocity_fault (nodes : List Node) (i : Int) (x : ℚ) (e : Fault × List Node)
    (h : setVelocity nodes i x = .error e) : e.1 ≠ Fault.assertion :=
  bind_fault _ _ e (fun e he => readNode_fault nodes i e he)
    (fun _ e he => writeNode_fault nodes i _ e he) h

theorem forLoop_fault (body : Int → List Node → Exec (List Node))
    (hbody : ∀ i nodes e, body i nodes = .error e → e.1 ≠ Fault.assertion) :
    ∀ (count : Nat) (i : Int) (nodes : List Node) (e : Fault × List Node),
      forLoop body count i nodes = .error e → e.1 ≠ Fault.assertion := by
  intro count
  induction count with
  | zero =>
    intro i nodes e h
    cases h
  | succ c ih =>
    intro i nodes e h
    exact bind_fault _ _ e (fun e he => hbody i nodes e he) (fun s e he => ih (i + 1) s e he) h

/-- Whatever the rounding and whatever `N`, a position in `[0, 1]` does not make `pluck` stop
with the assertion fault. -/
theorem pluck_no_assertion (toFloat : ℚ → ℚ) (N : Nat) (position strength : ℚ)
    (h0 : 0 ≤ position) (h1 : position ≤ 1) (nodes : List Node) (e : Fault × List Node)
    (h : String.pluck toFloat N position strength nodes = .error e) :
    e.1 ≠ Fault.assertion := by
  have hc : ¬ ¬ (position ≥ 0 ∧ position ≤ 1) := not_not.mpr ⟨h0, h1⟩
  unfold String.pluck at h
  rw [if_neg hc] at h
  refine bind_fault _ _ e ?_ ?_ h
  · intro e he
    refine forLoop_fault _ ?_ _ _ _ e he
    intro i s e he
    refine bind_fault _ _ e (fun e he => checkedDiv_fault _ _ _ e he) ?_ he
    intro t e he
    exact bind_fault _ _ e (fun e he => setDisplacement_fault _ _ _ e he)
      (fun s e he => setVelocity_fault _ _ _ e he) he
  · intro s e he
    refine forLoop_fault _ ?_ _ _ _ e he
    intro i s e he
    refine bind_fault _ _ e (fun e he => checkedDiv_fault _ _ _ e he) ?_ he
    intro t e he
    exact bind_fault _ _ e (fun e he => setDisplacement_fault _ _ _ e he)
      (fun s e he => setVelocity_fault _ _ _ e he) he

/-! ## The profile the program leaves -/

theorem pluckProfile_right (N start : Nat) (strength : ℚ) (i : Nat) (hs : start ≤ i)
    (hi : i < N) :
    (pluckProfile N start strength)[i]? = some
      { velocity := 0
        lateral_displacement := lerp 0 strength (((N : ℚ) - i) / ((N : ℚ) - start)) } := by
  rw [pluckProfile_getElem? N start strength i hi, profileNode, if_pos hs, rightNode]

theorem pluckProfile_left (N start : Nat) (strength : ℚ) (i : Nat) (hs : i < start)
    (hi : i < N) :
    (pluckProfile N start strength)[i]? = some
      { velocity := 0
        lateral_displacement := lerp 0 strength ((start : ℚ) / ((start : ℚ) - i)) } := by
  rw [pluckProfile_getElem? N start strength i hi, profileNode, if_neg (by omega), leftNode]

/-- For `N ≤ 2 ^ 24 + 1` and a position in `[0, 1]`, the program returns the profile around
its start index, which lies in `0..N-1` and is `floor((N - 1) * position)` or the next
integer. -/
theorem pluck_binary32_eq_pluckProfile (N : Nat) (hN : 1 ≤ N) (hfloat : N ≤ 2 ^ 24 + 1)
    (position strength : ℚ) (h0 : 0 ≤ position) (h1 : position ≤ 1) :
    ∃ start : Nat, String.start_index roundBinary32 N position = (start : Int) ∧
      start ≤ N - 1 ∧ (start = startIndex N position ∨ start = startIndex N position + 1) ∧
      ∀ nodes : List Node, nodes.length = N →
        String.pluck roundBinary32 N position strength nodes =
          .ok (pluckProfile N start strength) := by
  obtain ⟨start, hs, hle, hfl⟩ := start_index_binary32 N hN hfloat position h0 h1
  exact ⟨start, hs, hle, hfl, fun nodes hlen =>
    pluck_eq_pluckProfile roundBinary32 N position strength h0 h1 start hs (by omega) nodes hlen⟩

theorem pluckProfile_five_two (strength : ℚ) :
    pluckProfile 5 2 strength =
      [⟨0, strength⟩, ⟨0, 2 * strength⟩, ⟨0, strength⟩, ⟨0, 2 / 3 * strength⟩,
        ⟨0, 1 / 3 * strength⟩] := by
  simp only [pluckProfile, List.range_succ, List.range_zero, List.nil_append, List.map_cons,
    List.map_nil, List.map_append, List.cons_append, profileNode, rightNode, leftNode, lerp]
  norm_num

/-- The array the program leaves after `pluck(1/2, strength)` for `N = 5`. -/
theorem pluck_binary32_five_half (strength : ℚ) (nodes : List Node) (hlen : nodes.length = 5) :
    String.pluck roundBinary32 5 (1 / 2) strength nodes =
      .ok [⟨0, strength⟩, ⟨0, 2 * strength⟩, ⟨0, strength⟩, ⟨0, 2 / 3 * strength⟩,
        ⟨0, 1 / 3 * strength⟩] := by
  rw [pluck_eq_pluckProfile roundBinary32 5 (1 / 2) strength (by norm_num) (by norm_num) 2
    start_index_binary32_five_half (by norm_num) nodes hlen, pluckProfile_five_two]

/-- The array the program leaves after `pluck(0.7f, strength)` for `N = 11`: the profile
around index `7`. -/
theorem pluck_binary32_eleven (strength : ℚ) (nodes : List Node) (hlen : nodes.length = 11) :
    String.pluck roundBinary32 11 (11744051 / 16777216) strength nodes =
      .ok (pluckProfile 11 7 strength) :=
  pluck_eq_pluckProfile roundBinary32 11 (11744051 / 16777216) strength (by norm_num)
    (by norm_num) 7 start_index_binary32_eleven (by norm_num) nodes hlen

theorem pluck_binary32_large_not_ok (strength : ℚ) (result : List Node) :
    String.pluck roundBinary32 33554439 1 strength (String.fresh 33554439) ≠ .ok result := by
  rw [pluck_binary32_large strength _ (fresh_length 33554439)]
  exact Except.noConfusion

/-! ## The claims -/

/-- C1: for every `N ≥ 1`, every array of `N` nodes and every `dt`, `step(dt)` returns the
array of the two-pass reference: with the anchors `d[-1] = d[N] = 0`, node `i` gets the
velocity `v[i] + (springConstant / mass) * dt * (d[i-1] + d[i+1] - 2 * d[i])` computed from
the displacements before the step, and then the displacement `d[i] + v'[i] * dt`. -/
theorem C1_step_is_two_pass_reference (N : Nat) (hN : 1 ≤ N) (mass spring_constant dt : ℚ)
    (nodes : List Node) (hlen : nodes.length = N) :
    String.step N mass spring_constant dt nodes =
      .ok (stepReference N mass spring_constant dt nodes) :=
  step_eq_stepReference N hN mass spring_constant dt nodes hlen

/-- C1 at `N = 3`, `dt = 1/1000` and the constants of the source: the array returned. -/
theorem C1_step_is_two_pass_reference_witness :
    (1 ≤ 3 ∧ [(⟨1, 2⟩ : Node), ⟨0, 3⟩, ⟨-1, 5⟩].length = 3) ∧
    String.step 3 Node.mass String.spring_constant (1 / 1000) [⟨1, 2⟩, ⟨0, 3⟩, ⟨-1, 5⟩] =
      .ok [⟨-999, 1001 / 1000⟩, ⟨1000, 4⟩, ⟨-7001, -2001 / 1000⟩] :=
  ⟨⟨by decide, rfl⟩,
    (C1_step_is_two_pass_reference 3 (by decide) Node.mass String.spring_constant (1 / 1000)
      [⟨1, 2⟩, ⟨0, 3⟩, ⟨-1, 5⟩] rfl).trans (congrArg Except.ok stepReference_three_nodes)⟩

/-- C2, as stated, fails on the program.  For `N = 11` and `position = 0.7f` the product
`float(10) * 0.7f` rounds to `7`, so the profile is built around index `7` and not around
`floor((N - 1) * position) = 6`: node `6` gets displacement `7`, not `1`.  For
`N = 2 ^ 25 + 7` and `position = 1`, `float(N - 1)` rounds up to `N + 1` and `pluck` stops at
an out-of-range index without returning an array. -/
theorem C2_exact_floor_counterexample :
    (¬ ∃ result,
      String.pluck roundBinary32 11 (11744051 / 16777216) 1 (String.fresh 11) = .ok result ∧
      result.length = 11 ∧
      (∀ i, startIndex 11 (11744051 / 16777216) ≤ i → i < 11 →
        result[i]? = some
          { velocity := 0
            lateral_displacement :=
              lerp 0 1 ((((11 : Nat) : ℚ) - i) /
                (((11 : Nat) : ℚ) - startIndex 11 (11744051 / 16777216))) }) ∧
      (∀ i, i < startIndex 11 (11744051 / 16777216) →
        result[i]? = some
          { velocity := 0
            lateral_displacement :=
              lerp 0 1 ((startIndex 11 (11744051 / 16777216) : ℚ) /
                ((startIndex 11 (11744051 / 16777216) : ℚ) - i)) })) ∧
    (¬ ∃ result,
      String.pluck roundBinary32 33554439 1 1 (String.fresh 33554439) = .ok result) := by
  constructor
  · rintro ⟨result, hr, _, hright, _⟩
    rw [pluck_binary32_eleven 1 _ (fresh_length 11)] at hr
    cases hr
    have h6 := hright 6 (by rw [startIndex_eleven]) (by norm_num)
    rw [pluckProfile_left 11 7 1 6 (by norm_num) (by norm_num), startIndex_eleven] at h6
    norm_num [lerp] at h6
  · rintro ⟨result, hr⟩
    exact pluck_binary32_large_not_ok 1 result hr

/-- C2, amended: for every `N` with `1 ≤ N ≤ 2 ^ 24 + 1` (the range in which `float(N - 1)` is
exact), every position in `[0, 1]` and every strength, `pluck` as the program runs it returns
an array of `N` nodes built around the start index it computes,
`startIndex = int(float(N - 1) * position)` with the product rounded to binary32.  That index
lies in `0..N-1` and is `floor((N - 1) * position)` or the next integer.  Every node has
velocity `0`, node `i ≥ startIndex` has displacement
`lerp(0, strength, (N - i) / (N - startIndex))` and node `i < startIndex` has displacement
`lerp(0, strength, startIndex / (startIndex - i))`; the array before the call plays no
part. -/
theorem C2_pluck_profile (N : Nat) (hN : 1 ≤ N) (hfloat : N ≤ 2 ^ 24 + 1)
    (position strength : ℚ) (h0 : 0 ≤ position) (h1 : position ≤ 1) (nodes prior : List Node)
    (hlen : nodes.length = N) (hprior : prior.length = N) :
    ∃ start : Nat, String.start_index roundBinary32 N position = (start : Int) ∧
      start ≤ N - 1 ∧ (start = startIndex N position ∨ start = startIndex N position + 1) ∧
      (startIndex N position : Int) = ⌊((N : ℚ) - 1) * position⌋ ∧
      ∃ result, String.pluck roundBinary32 N position strength nodes = .ok result ∧
        result.length = N ∧
        (∀ i, start ≤ i → i < N →
          result[i]? = some
            { velocity := 0
              lateral_displacement := lerp 0 strength (((N : ℚ) - i) / ((N : ℚ) - start)) }) ∧
        (∀ i, i < start →
          result[i]? = some
            { velocity := 0
              lateral_displacement := lerp 0 strength ((start : ℚ) / ((start : ℚ) - i)) }) ∧
        String.pluck roundBinary32 N position strength prior = .ok result := by
  obtain ⟨start, hs, hle, hfl, hp⟩ :=
    pluck_binary32_eq_pluckProfile N hN hfloat position strength h0 h1
  have hN' : (1 : ℚ) ≤ (N : ℚ) := by exact_mod_cast hN
  have hfloor : (startIndex N position : Int) = ⌊((N : ℚ) - 1) * position⌋ := by
    unfold startIndex
    exact Int.toNat_of_nonneg (Int.floor_nonneg.mpr (mul_nonneg (by linarith) h0))
  refine ⟨start, hs, hle, hfl, hfloor, pluckProfile N start strength, hp nodes hlen,
    pluckProfile_length N start strength, ?_, ?_, hp prior hprior⟩
  · intro i hsi hi
    exact pluckProfile_right N start strength i hsi hi
  · intro i hsi
    exact pluckProfile_left N start strength i hsi (by omega)

/-- C2, amended, at `N = 5`, `pluck(1/2, 1)`, from the fresh array and from another one: the
start index is `2 = floor(4 * 1/2)`. -/
theorem C2_pluck_profile_witness :
    String.start_index roundBinary32 5 (1 / 2) = 2 ∧
    ∃ result, String.pluck roundBinary32 5 (1 / 2) 1 (String.fresh 5) = .ok result ∧
      result.length = 5 ∧
      (∀ i, 2 ≤ i → i < 5 →
        result[i]? = some
          { velocity := 0
            lateral_displacement :=
              lerp 0 1 ((((5 : Nat) : ℚ) - i) / (((5 : Nat) : ℚ) - ((2 : Nat) : ℚ))) }) ∧
      (∀ i, i < 2 →
        result[i]? = some
          { velocity := 0
            lateral_displacement :=
              lerp 0 1 (((2 : Nat) : ℚ) / (((2 : Nat) : ℚ) - i)) }) ∧
      String.pluck roundBinary32 5 (1 / 2) 1 [⟨1, 2⟩, ⟨3, 4⟩, ⟨5, 6⟩, ⟨7, 8⟩, ⟨9, 10⟩] =
        .ok result := by
  obtain ⟨start, hs, _, _, _, result, hr, hlen, hright, hleft, hprior⟩ :=
    C2_pluck_profile 5 (by norm_num) (by norm_num) (1 / 2) 1 (by norm_num) (by norm_num)
      (String.fresh 5) [⟨1, 2⟩, ⟨3, 4⟩, ⟨5, 6⟩, ⟨7, 8⟩, ⟨9, 10⟩] rfl rfl
  have e : start = 2 := by
    have := hs.symm.trans start_index_binary32_five_half
    exact_mod_cast this
  subst e
  exact ⟨start_index_binary32_five_half, result, hr, hlen, hright, hleft, hprior⟩

/-- C3: on an array of `N ≥ 1` nodes, `pluck(position, strength)` stops with a fault if and
only if `position < 0` or `position > 1`; it then stops with the assertion fault, and the
array at that moment is the array before the call (nothing was written, nothing clamped).
With the rounding of the program, likewise: `pluck` stops with the assertion fault if and only
if `position < 0` or `position > 1`, and the array is then the array before the call. -/
theorem C3_pluck_fails_iff_out_of_range (N : Nat) (hN : 1 ≤ N) (position strength : ℚ)
    (nodes : List Node) (hlen : nodes.length = N) :
    ((∃ e, String.pluck noRounding N position strength nodes = .error e) ↔
        (position < 0 ∨ position > 1)) ∧
    ((position < 0 ∨ position > 1) →
        String.pluck noRounding N position strength nodes = .error (Fault.assertion, nodes)) ∧
    ((∃ stopped, String.pluck roundBinary32 N position strength nodes =
          .error (Fault.assertion, stopped)) ↔
        (position < 0 ∨ position > 1)) ∧
    ((position < 0 ∨ position > 1) →
        String.pluck roundBinary32 N position strength nodes =
          .error (Fault.assertion, nodes)) := by
  have hfail : ∀ toFloat : ℚ → ℚ, (position < 0 ∨ position > 1) →
      String.pluck toFloat N position strength nodes = .error (Fault.assertion, nodes) := by
    intro toFloat h
    have hc : ¬ (position ≥ 0 ∧ position ≤ 1) := by
      rintro ⟨a, b⟩
      rcases h with h | h
      · exact absurd a (not_le.mpr h)
      · exact absurd b (not_le.mpr h)
    unfold String.pluck
    rw [if_pos hc]
  have hrange : ¬ (position < 0 ∨ position > 1) → 0 ≤ position ∧ position ≤ 1 := by
    intro hcon
    constructor
    · by_contra h
      exact hcon (Or.inl (not_le.mp h))
    · by_contra h
      exact hcon (Or.inr (not_le.mp h))
  refine ⟨⟨?_, fun h => ⟨_, hfail noRounding h⟩⟩, hfail noRounding,
    ⟨?_, fun h => ⟨_, hfail roundBinary32 h⟩⟩, hfail roundBinary32⟩
  · rintro ⟨e, he⟩
    by_contra hcon
    obtain ⟨h0, h1⟩ := hrange hcon
    rw [pluck_eq_pluckReference N hN position strength h0 h1 nodes hlen] at he
    exact Except.noConfusion he
  · rintro ⟨stopped, he⟩
    by_contra hcon
    obtain ⟨h0, h1⟩ := hrange hcon
    exact pluck_no_assertion roundBinary32 N position strength h0 h1 nodes _ he rfl

/-- C3 at `N = 5`: `pluck(3/2, 1)` on the fresh array. -/
theorem C3_pluck_fails_iff_out_of_range_witness :
    (1 ≤ 5 ∧ (String.fresh 5).length = 5) ∧
    ((∃ e, String.pluck noRounding 5 (3 / 2) 1 (String.fresh 5) = .error e) ↔
        ((3 / 2 : ℚ) < 0 ∨ (3 / 2 : ℚ) > 1)) ∧
    (((3 / 2 : ℚ) < 0 ∨ (3 / 2 : ℚ) > 1) →
        String.pluck noRounding 5 (3 / 2) 1 (String.fresh 5) =
          .error (Fault.assertion, String.fresh 5)) ∧
    ((∃ stopped, String.pluck roundBinary32 5 (3 / 2) 1 (String.fresh 5) =
          .error (Fault.assertion, stopped)) ↔
        ((3 / 2 : ℚ) < 0 ∨ (3 / 2 : ℚ) > 1)) ∧
    (((3 / 2 : ℚ) < 0 ∨ (3 / 2 : ℚ) > 1) →
        String.pluck roundBinary32 5 (3 / 2) 1 (String.fresh 5) =
          .error (Fault.assertion, String.fresh 5)) :=
  ⟨⟨by decide, rfl⟩, C3_pluck_fails_iff_out_of_range 5 (by decide) (3 / 2) 1 (String.fresh 5) rfl⟩

/-- C4: on an array of `N ≥ 1` nodes, `sample()` returns the displacement of the node at
index `N / 2` and leaves the array as it was; hence `count` successive calls return `count`
times that same value and still leave the array as it was. -/
theorem C4_sample_reads_midpoint (N : Nat) (hN : 1 ≤ N) (nodes : List Node)
    (hlen : nodes.length = N) :
    ∃ n, nodes[N / 2]? = some n ∧
      String.sample N nodes = .ok (n.lateral_displacement, nodes) ∧
      ∀ count, String.sampleN N count nodes =
        .ok (List.replicate count n.lateral_displacement, nodes) := by
  have hlt : N / 2 < nodes.length := by omega
  have hn : (nodes.getD (N / 2) {}) = nodes[N / 2] := by
    rw [List.getD_eq_getElem?_getD, List.getElem?_eq_getElem hlt, Option.getD_some]
  refine ⟨nodes[N / 2], List.getElem?_eq_getElem hlt, ?_, ?_⟩
  · rw [sample_eq N hN nodes hlen, hn]
  · intro count
    rw [sampleN_eq N hN nodes hlen, hn]

/-- C4 at `N = 5`: the value read is the displacement of node `2`. -/
theorem C4_sample_reads_midpoint_witness :
    ∃ n, ([⟨1, 2⟩, ⟨1, 3⟩, ⟨1, 4⟩, ⟨1, 5⟩, ⟨1, 6⟩] : List Node)[5 / 2]? = some n ∧
      String.sample 5 [⟨1, 2⟩, ⟨1, 3⟩, ⟨1, 4⟩, ⟨1, 5⟩, ⟨1, 6⟩] =
        .ok (n.lateral_displacement, [⟨1, 2⟩, ⟨1, 3⟩, ⟨1, 4⟩, ⟨1, 5⟩, ⟨1, 6⟩]) ∧
      ∀ count, String.sampleN 5 count [⟨1, 2⟩, ⟨1, 3⟩, ⟨1, 4⟩, ⟨1, 5⟩, ⟨1, 6⟩] =
        .ok (List.replicate count n.lateral_displacement,
          [⟨1, 2⟩, ⟨1, 3⟩, ⟨1, 4⟩, ⟨1, 5⟩, ⟨1, 6⟩]) :=
  C4_sample_reads_midpoint 5 (by decide) [⟨1, 2⟩, ⟨1, 3⟩, ⟨1, 4⟩, ⟨1, 5⟩, ⟨1, 6⟩] rfl

/-- C5: for every `N ≥ 1`, every `dt` and every `n`, `n` calls `step(dt)` on the freshly
constructed array return the freshly constructed array: every displacement and velocity is
still `0`. -/
theorem C5_zero_state_is_fixed_point (N : Nat) (hN : 1 ≤ N) (mass spring_constant dt : ℚ)
    (n : Nat) :
    String.stepN N mass spring_constant dt n (String.fresh N) = .ok (String.fresh N) ∧
      ∀ i, i < N → (String.fresh N)[i]? = some { velocity := 0, lateral_displacement := 0 } := by
  constructor
  · induction n with
    | zero => rfl
    | succ c ih =>
      simp only [String.stepN]
      rw [step_eq_stepReference N hN mass spring_constant dt _ (fresh_length N),
        stepReference_fresh, ok_bind, ih]
  · intro i hi
    unfold String.fresh
    rw [List.getElem?_replicate, if_pos hi]

/-- C5 at `N = 4`, the constants of the source, `dt = 1/44100` and `1000` steps. -/
theorem C5_zero_state_is_fixed_point_witness :
    1 ≤ 4 ∧
    String.stepN 4 Node.mass String.spring_constant (1 / 44100) 1000 (String.fresh 4) =
      .ok (String.fresh 4) :=
  ⟨by decide,
    (C5_zero_state_is_fixed_point 4 (by decide) Node.mass String.spring_constant
      (1 / 44100) 1000).1⟩

/-- C6, as stated, fails on the program.  For `N = 11` and `position = 0.7f` the node at
`floor((N - 1) * position) = 6` has displacement `7 * strength`, not `strength` (the peak of
the right ramp is at index `7`).  For `N = 2 ^ 25 + 7` and `position = 1` no array is
returned. -/
theorem C6_exact_floor_counterexample :
    (¬ ∃ result,
      String.pluck roundBinary32 11 (11744051 / 16777216) 1 (String.fresh 11) = .ok result ∧
      result[startIndex 11 (11744051 / 16777216)]? =
        some { velocity := 0, lateral_displacement := 1 }) ∧
    (¬ ∃ result,
      String.pluck roundBinary32 33554439 1 1 (String.fresh 33554439) = .ok result ∧
      result[startIndex 33554439 1]? = some { velocity := 0, lateral_displacement := 1 }) := by
  constructor
  · rintro ⟨result, hr, h6⟩
    rw [pluck_binary32_eleven 1 _ (fresh_length 11)] at hr
    cases hr
    rw [startIndex_eleven, pluckProfile_left 11 7 1 6 (by norm_num) (by norm_num)] at h6
    norm_num [lerp] at h6
  · rintro ⟨result, hr, _⟩
    exact pluck_binary32_large_not_ok 1 result hr

/-- C6, amended: for every `N` with `1 ≤ N ≤ 2 ^ 24 + 1` (the range in which `float(N - 1)` is
exact), every position in `[0, 1]` and every strength, after `pluck` as the program runs it
the node at the start index it computes, `startIndex = int(float(N - 1) * position)` with the
product rounded to binary32, has displacement `strength`, every node has velocity `0`, and
right of `startIndex` the parameter `t = (N - i) / (N - startIndex)` of the displacement
`lerp(0, strength, t)` of node `i` strictly decreases as `i` grows. -/
theorem C6_pluck_peak_and_right_ramp (N : Nat) (hN : 1 ≤ N) (hfloat : N ≤ 2 ^ 24 + 1)
    (position strength : ℚ) (h0 : 0 ≤ position) (h1 : position ≤ 1) (nodes : List Node)
    (hlen : nodes.length = N) :
    ∃ start : Nat, String.start_index roundBinary32 N position = (start : Int) ∧
      start ≤ N - 1 ∧
      ∃ result, String.pluck roundBinary32 N position strength nodes = .ok result ∧
        result[start]? = some { velocity := 0, lateral_displacement := strength } ∧
        (∀ i, i < N → ∃ d, result[i]? = some { velocity := 0, lateral_displacement := d }) ∧
        (∀ i j, start ≤ i → i < j → j < N →
          result[i]? = some
            { velocity := 0
              lateral_displacement := lerp 0 strength (((N : ℚ) - i) / ((N : ℚ) - start)) } ∧
          result[j]? = some
            { velocity := 0
              lateral_displacement := lerp 0 strength (((N : ℚ) - j) / ((N : ℚ) - start)) } ∧
          ((N : ℚ) - j) / ((N : ℚ) - start) < ((N : ℚ) - i) / ((N : ℚ) - start)) := by
  obtain ⟨start, hs, hle, _, hp⟩ :=
    pluck_binary32_eq_pluckProfile N hN hfloat position strength h0 h1
  have hlt : start < N := by omega
  have hden : (0 : ℚ) < (N : ℚ) - start := by
    have : (start : ℚ) < (N : ℚ) := by exact_mod_cast hlt
    linarith
  refine ⟨start, hs, hle, pluckProfile N start strength, hp nodes hlen, ?_, ?_, ?_⟩
  · rw [pluckProfile_right N start strength start le_rfl hlt, div_self (ne_of_gt hden)]
    simp [lerp]
  · intro i hi
    by_cases c : start ≤ i
    · exact ⟨_, pluckProfile_right N start strength i c hi⟩
    · exact ⟨_, pluckProfile_left N start strength i (by omega) hi⟩
  · intro i j hsi hij hj
    refine ⟨pluckProfile_right N start strength i hsi (by omega),
      pluckProfile_right N start strength j (by omega) hj, ?_⟩
    apply div_lt_div_of_pos_right _ hden
    have : (i : ℚ) < (j : ℚ) := by exact_mod_cast hij
    linarith

/-- C6, amended, at `N = 5`, `pluck(1/2, 1)`: the start index is `2`, node `2` has
displacement `1` and every velocity is `0`. -/
theorem C6_pluck_peak_and_right_ramp_witness :
    String.start_index roundBinary32 5 (1 / 2) = 2 ∧
    ∃ result, String.pluck roundBinary32 5 (1 / 2) 1 (String.fresh 5) = .ok result ∧
      result[2]? = some { velocity := 0, lateral_displacement := 1 } ∧
      (∀ i, i < 5 → ∃ d, result[i]? = some { velocity := 0, lateral_displacement := d }) := by
  obtain ⟨start, hs, _, result, hr, hpeak, hvel, _⟩ :=
    C6_pluck_peak_and_right_ramp 5 (by norm_num) (by norm_num) (1 / 2) 1 (by norm_num)
      (by norm_num) (String.fresh 5) rfl
  have e : start = 2 := by
    have := hs.symm.trans start_index_binary32_five_half
    exact_mod_cast this
  subst e
  exact ⟨start_index_binary32_five_half, result, hr, hpeak, hvel⟩

/-- C7, at the input `N = 5`, `pluck(1/2, 1)`: the array returned has displacement `2` at
index `1 = m - 1` and `2/3` at index `3 = m + 1`, where `m = 5 / 2 = 2`; in exact arithmetic
and with the rounding of the program alike. -/
theorem C7_midpoint_pluck_five_nodes :
    String.pluck noRounding 5 (1 / 2) 1 (String.fresh 5) =
      .ok [⟨0, 1⟩, ⟨0, 2⟩, ⟨0, 1⟩, ⟨0, 2 / 3⟩, ⟨0, 1 / 3⟩] ∧
    String.pluck roundBinary32 5 (1 / 2) 1 (String.fresh 5) =
      .ok [⟨0, 1⟩, ⟨0, 2⟩, ⟨0, 1⟩, ⟨0, 2 / 3⟩, ⟨0, 1 / 3⟩] := by
  constructor
  · rw [pluck_five_half 1 (String.fresh 5) rfl]
    norm_num
  · rw [pluck_binary32_five_half 1 (String.fresh 5) rfl]
    norm_num

/-- C8: for every `N ≥ 1`, positive `springConstant` and `mass`, and `dt > 0` with
`(springConstant / mass) * dt ^ 2 < 1`, there is a constant `C`, depending on `N`, `dt`,
`springConstant` and `mass` only, such that for every position in `[0, 1]`, every strength,
every number `n` of steps and every node `i`, `pluck(position, strength)` followed by `n`
calls `step(dt)` returns an array whose node `i` has a displacement of absolute value at
most `C * |strength|`. -/
theorem C8_bounded_displacement (N : Nat) (hN : 1 ≤ N) (mass spring_constant dt : ℚ)
    (hm : 0 < mass) (hk : 0 < spring_constant) (hdt : 0 < dt)
    (hstab : spring_constant / mass * dt ^ 2 < 1) :
    ∃ C : ℚ, ∀ (position strength : ℚ), 0 ≤ position → position ≤ 1 →
      ∀ (nodes : List Node), nodes.length = N → ∀ (n i : Nat), i < N →
        ∃ plucked result node, String.pluck noRounding N position strength nodes = .ok plucked ∧
          String.stepN N mass spring_constant dt n plucked = .ok result ∧
          result[i]? = some node ∧ |node.lateral_displacement| ≤ C * |strength| := by
  have hpos : 0 < 1 - spring_constant / mass * dt ^ 2 := by linarith
  have hle1 : 1 - spring_constant / mass * dt ^ 2 ≤ 1 := by
    have : 0 ≤ spring_constant / mass * dt ^ 2 := by positivity
    linarith
  refine ⟨2 * (N : ℚ) * ((N : ℚ) + 1) / (1 - spring_constant / mass * dt ^ 2), ?_⟩
  intro position strength h0 h1 nodes hlen n i hi
  have hplen := pluckReference_length N position strength
  have hrlen := iterate_stepReference_length N mass spring_constant dt
    (pluckReference N position strength) hplen n
  have hget : ((stepReference N mass spring_constant dt)^[n]
      (pluckReference N position strength))[i]? =
      some (((stepReference N mass spring_constant dt)^[n]
        (pluckReference N position strength)).getD i {}) := by
    rw [List.getD_eq_getElem?_getD, List.getElem?_eq_getElem (by omega)]
    rfl
  refine ⟨pluckReference N position strength, _, _,
    pluck_eq_pluckReference N hN position strength h0 h1 nodes hlen,
    stepN_eq_iterate N hN mass spring_constant dt n _ hplen, hget, ?_⟩
  have hd := displacement_sq_after_steps N mass spring_constant dt hm hk hstab
    (pluckReference N position strength) hplen (pluckReference_velocity N position strength)
    n i hi
  have hS := stretchSum_pluckReference_le N hN position strength h0 h1
  have hNq : (0 : ℚ) ≤ (N : ℚ) := Nat.cast_nonneg N
  have hA : (N : ℚ) * stretchSum N (displacementField (pluckReference N position strength)) ≤
      (2 * (N : ℚ) * ((N : ℚ) + 1) * |strength|) ^ 2 := by
    calc (N : ℚ) * stretchSum N (displacementField (pluckReference N position strength))
        ≤ (N : ℚ) * (((N : ℚ) + 1) * (2 * (N : ℚ) * |strength|) ^ 2) :=
          mul_le_mul_of_nonneg_left hS hNq
      _ ≤ (2 * (N : ℚ) * ((N : ℚ) + 1) * |strength|) ^ 2 := by
          have : 0 ≤ ((N : ℚ) + 1) * (2 * (N : ℚ) * |strength|) ^ 2 := by positivity
          nlinarith
  have hA0 : 0 ≤ (N : ℚ) * stretchSum N (displacementField (pluckReference N position strength)) :=
    mul_nonneg hNq (stretchSum_nonneg N _)
  have hfin : (N : ℚ) * stretchSum N (displacementField (pluckReference N position strength))
        / (1 - spring_constant / mass * dt ^ 2) ≤
      (2 * (N : ℚ) * ((N : ℚ) + 1) / (1 - spring_constant / mass * dt ^ 2) * |strength|) ^ 2 := by
    have e : (2 * (N : ℚ) * ((N : ℚ) + 1) / (1 - spring_constant / mass * dt ^ 2)
          * |strength|) ^ 2 =
        (2 * (N : ℚ) * ((N : ℚ) + 1) * |strength|) ^ 2
          / (1 - spring_constant / mass * dt ^ 2) ^ 2 := by
      rw [div_mul_eq_mul_div, div_pow]
    rw [e, div_le_div_iff₀ hpos (pow_pos hpos 2)]
    calc (N : ℚ) * stretchSum N (displacementField (pluckReference N position strength))
          * (1 - spring_constant / mass * dt ^ 2) ^ 2
        = ((N : ℚ) * stretchSum N (displacementField (pluckReference N position strength))
            * (1 - spring_constant / mass * dt ^ 2)) * (1 - spring_constant / mass * dt ^ 2) := by
          ring
      _ ≤ ((N : ℚ) * stretchSum N (displacementField (pluckReference N position strength)) * 1)
            * (1 - spring_constant / mass * dt ^ 2) :=
          mul_le_mul_of_nonneg_right (mul_le_mul_of_nonneg_left hle1 hA0) (le_of_lt hpos)
      _ ≤ (2 * (N : ℚ) * ((N : ℚ) + 1) * |strength|) ^ 2
            * (1 - spring_constant / mass * dt ^ 2) := by
          rw [mul_one]
          exact mul_le_mul_of_nonneg_right hA (le_of_lt hpos)
  apply abs_le_of_sq_le_sq (le_trans hd hfin)
  positivity

/-- C8 at `N = 5`, the constants of the source and `dt = 1/44100`. -/
theorem C8_bounded_displacement_witness :
    ∃ C : ℚ, ∀ (position strength : ℚ), 0 ≤ position → position ≤ 1 →
      ∀ (nodes : List Node), nodes.length = 5 → ∀ (n i : Nat), i < 5 →
        ∃ plucked result node, String.pluck noRounding 5 position strength nodes = .ok plucked ∧
          String.stepN 5 Node.mass String.spring_constant (1 / 44100) n plucked = .ok result ∧
          result[i]? = some node ∧ |node.lateral_displacement| ≤ C * |strength| :=
  C8_bounded_displacement 5 (by decide) Node.mass String.spring_constant (1 / 44100)
    (by norm_num [Node.mass]) (by norm_num [String.spring_constant]) (by norm_num)
    (by norm_num [Node.mass, String.spring_constant])

/-- C9: for `N = 1`, `step(dt)` on the node `(v, d)` returns the node with velocity
`v' = v - 2 * (springConstant / mass) * d * dt` and displacement `d + v' * dt`; the array has
one node only, and the run does not stop with an out-of-range access. -/
theorem C9_single_node_double_anchor (mass spring_constant dt v d : ℚ) :
    String.step 1 mass spring_constant dt [{ velocity := v, lateral_displacement := d }] =
      .ok [{ velocity := v - 2 * (spring_constant / mass) * d * dt
             lateral_displacement := d + (v - 2 * (spring_constant / mass) * d * dt) * dt }] := by
  rw [step_eq_stepReference 1 le_rfl mass spring_constant dt
    [{ velocity := v, lateral_displacement := d }] rfl]
  have ha : anchoredDisplacement 1 [{ velocity := v, lateral_displacement := d }] (-1) = 0 := by
    simp [anchoredDisplacement]
  have hb : anchoredDisplacement 1 [{ velocity := v, lateral_displacement := d }] 1 = 0 := by
    simp [anchoredDisplacement]
  simp only [stepReference, List.range_succ, List.range_zero, List.nil_append, List.map_cons,
    List.map_nil, referenceNode, referenceVelocity, Nat.cast_zero, zero_sub, zero_add, ha, hb,
    List.getD_cons_zero]
  congr 3 <;> ring

/-- C10: for every `N ≥ 1`, every `s ≠ 0` and every `dt > 0` with
`(springConstant / mass) * dt ^ 2 < 1` (the two constants being positive), `pluck(0, s)`
followed by one `step(dt)` returns an array whose node `0` has the displacement
`s * (1 - (springConstant / mass) * dt ^ 2 * (N + 1) / N)`, which is strictly smaller than
`s` in absolute value. -/
theorem C10_anchor_pull_one_step (N : Nat) (hN : 1 ≤ N) (mass spring_constant s dt : ℚ)
    (hm : 0 < mass) (hk : 0 < spring_constant) (hs : s ≠ 0) (hdt : 0 < dt)
    (hstab : spring_constant / mass * dt ^ 2 < 1) (nodes : List Node)
    (hlen : nodes.length = N) :
    ∃ plucked result node, String.pluck noRounding N 0 s nodes = .ok plucked ∧
      String.step N mass spring_constant dt plucked = .ok result ∧
      result[0]? = some node ∧
      node.lateral_displacement =
        s * (1 - spring_constant / mass * dt ^ 2 * (((N : ℚ) + 1) / (N : ℚ))) ∧
      |node.lateral_displacement| < |s| := by
  have hNq : (1 : ℚ) ≤ (N : ℚ) := by exact_mod_cast hN
  have hmu : 0 < spring_constant / mass * dt ^ 2 := by positivity
  have hr1 : 1 ≤ ((N : ℚ) + 1) / (N : ℚ) := by
    rw [le_div_iff₀ (by linarith)]
    linarith
  have hr2 : ((N : ℚ) + 1) / (N : ℚ) ≤ 2 := by
    rw [div_le_iff₀ (by linarith)]
    linarith
  have hx0 : 0 < spring_constant / mass * dt ^ 2 * (((N : ℚ) + 1) / (N : ℚ)) := by positivity
  have hx2 : spring_constant / mass * dt ^ 2 * (((N : ℚ) + 1) / (N : ℚ)) < 2 := by nlinarith
  refine ⟨pluckReference N 0 s, stepReference N mass spring_constant dt (pluckReference N 0 s),
    referenceNode N mass spring_constant dt (pluckReference N 0 s) 0,
    pluck_eq_pluckReference N hN 0 s le_rfl zero_le_one nodes hlen,
    step_eq_stepReference N hN mass spring_constant dt _ (pluckReference_length N 0 s),
    stepReference_getElem? N mass spring_constant dt _ 0 (by omega), ?_, ?_⟩
  · rw [referenceNode_pluck_zero N hN]
  · rw [referenceNode_pluck_zero N hN]
    show |s * (1 - spring_constant / mass * dt ^ 2 * (((N : ℚ) + 1) / (N : ℚ)))| < |s|
    rw [abs_mul]
    have hs' : 0 < |s| := abs_pos.mpr hs
    have h1 : |1 - spring_constant / mass * dt ^ 2 * (((N : ℚ) + 1) / (N : ℚ))| < 1 := by
      rw [abs_lt]
      constructor <;> linarith
    calc |s| * |1 - spring_constant / mass * dt ^ 2 * (((N : ℚ) + 1) / (N : ℚ))|
        < |s| * 1 := mul_lt_mul_of_pos_left h1 hs'
      _ = |s| := mul_one _

/-- C10 at `N = 5`, the constants of the source, `s = 1` and `dt = 1/44100`. -/
theorem C10_anchor_pull_one_step_witness :
    ∃ plucked result node, String.pluck noRounding 5 0 1 (String.fresh 5) = .ok plucked ∧
      String.step 5 Node.mass String.spring_constant (1 / 44100) plucked = .ok result ∧
      result[0]? = some node ∧
      node.lateral_displacement =
        1 * (1 - String.spring_constant / Node.mass * (1 / 44100) ^ 2
          * ((((5 : Nat) : ℚ) + 1) / ((5 : Nat) : ℚ))) ∧
      |node.lateral_displacement| < |(1 : ℚ)| :=
  C10_anchor_pull_one_step 5 (by decide) Node.mass String.spring_constant 1 (1 / 44100)
    (by norm_num [Node.mass]) (by norm_num [String.spring_constant]) (by norm_num)
    (by norm_num) (by norm_num [Node.mass, String.spring_constant]) (String.fresh 5) rfl

/-- C11: for `N = 5`, `springConstant = 100000`, `mass = 0.1`, on the array left by
`pluck(0.5, 1.0)`, one `step(dt)` with `dt = 1e-6` changes the value of `sample()` by
`(springConstant / mass) * dt ^ 2 * (d[1] + d[3] - 2 * d[2])`, where `d` is the displacement
field before the step; the change is `2/3000000`, below `1e-6` in absolute value. -/
theorem C11_first_step_moves_sample (nodes : List Node) (hlen : nodes.length = 5) :
    ∃ plucked stepped before after d1 d2 d3,
      String.pluck noRounding 5 (1 / 2) 1 nodes = .ok plucked ∧
      plucked[1]? = some { velocity := 0, lateral_displacement := d1 } ∧
      plucked[2]? = some { velocity := 0, lateral_displacement := d2 } ∧
      plucked[3]? = some { velocity := 0, lateral_displacement := d3 } ∧
      String.sample 5 plucked = .ok (before, plucked) ∧
      String.step 5 Node.mass String.spring_constant (1 / 1000000) plucked = .ok stepped ∧
      String.sample 5 stepped = .ok (after, stepped) ∧
      after - before =
        String.spring_constant / Node.mass * (1 / 1000000) ^ 2 * (d1 + d3 - 2 * d2) ∧
      after - before = 2 / 3000000 ∧
      |after - before| < 1 / 1000000 := by
  have hstep := step_eq_stepReference 5 (by decide) Node.mass String.spring_constant
    (1 / 1000000) [⟨0, 1⟩, ⟨0, 2⟩, ⟨0, 1⟩, ⟨0, 2 / 3⟩, ⟨0, 1 / 3⟩] rfl
  have hs1 := sample_eq 5 (by decide) [⟨0, 1⟩, ⟨0, 2⟩, ⟨0, 1⟩, ⟨0, 2 / 3⟩, ⟨0, 1 / 3⟩] rfl
  have hs2 := sample_eq 5 (by decide)
    (stepReference 5 Node.mass String.spring_constant (1 / 1000000)
      [⟨0, 1⟩, ⟨0, 2⟩, ⟨0, 1⟩, ⟨0, 2 / 3⟩, ⟨0, 1 / 3⟩]) (stepReference_length _ _ _ _ _)
  rw [show (5 : Nat) / 2 = 2 from rfl] at hs1 hs2
  rw [stepReference_getD 5 _ _ _ _ 2 (by decide), referenceNode_five_half_two] at hs2
  refine ⟨_, _, _, _, 2, 1, 2 / 3, ?_, rfl, rfl, rfl, hs1, hstep, hs2, ?_, ?_, ?_⟩
  · rw [pluck_five_half 1 nodes hlen]
    norm_num
  · norm_num [Node.mass, String.spring_constant]
  · norm_num
  · norm_num [abs_lt]

/-- C11 on the freshly constructed array. -/
theorem C11_first_step_moves_sample_witness :
    ∃ plucked stepped before after d1 d2 d3,
      String.pluck noRounding 5 (1 / 2) 1 (String.fresh 5) = .ok plucked ∧
      plucked[1]? = some { velocity := 0, lateral_displacement := d1 } ∧
      plucked[2]? = some { velocity := 0, lateral_displacement := d2 } ∧
      plucked[3]? = some { velocity := 0, lateral_displacement := d3 } ∧
      String.sample 5 plucked = .ok (before, plucked) ∧
      String.step 5 Node.mass String.spring_constant (1 / 1000000) plucked = .ok stepped ∧
      String.sample 5 stepped = .ok (after, stepped) ∧
      after - before =
        String.spring_constant / Node.mass * (1 / 1000000) ^ 2 * (d1 + d3 - 2 * d2) ∧
      after - before = 2 / 3000000 ∧
      |after - before| < 1 / 1000000 :=
  C11_first_step_moves_sample (String.fresh 5) rfl

/-- C12, at the input `N = 5`, `pluck(0.5, 1.0)`: the program returns displacement `1` at
index `0` and `2` at index `1`, where the claim expects `lerp(0, 1, 2/3) = 2/3` and
`lerp(0, 1, 2/2) = 1`; index `2` has displacement `1` and all five velocities are `0`. -/
theorem C12_profile_at_failing_input :
    String.pluck roundBinary32 5 (1 / 2) 1 (String.fresh 5) =
      .ok [⟨0, 1⟩, ⟨0, 2⟩, ⟨0, 1⟩, ⟨0, 2 / 3⟩, ⟨0, 1 / 3⟩] ∧
    lerp 0 1 (2 / 3) = 2 / 3 ∧ lerp 0 1 (2 / 2) = 1 ∧
    (¬ ∃ result, String.pluck roundBinary32 5 (1 / 2) 1 (String.fresh 5) = .ok result ∧
      result[0]? = some { velocity := 0, lateral_displacement := lerp 0 1 (2 / 3) } ∧
      result[1]? = some { velocity := 0, lateral_displacement := lerp 0 1 (2 / 2) }) := by
  have hp : String.pluck roundBinary32 5 (1 / 2) 1 (String.fresh 5) =
      .ok [⟨0, 1⟩, ⟨0, 2⟩, ⟨0, 1⟩, ⟨0, 2 / 3⟩, ⟨0, 1 / 3⟩] := by
    rw [pluck_binary32_five_half 1 (String.fresh 5) rfl]
    norm_num
  refine ⟨hp, by norm_num [lerp], by norm_num [lerp], ?_⟩
  rintro ⟨result, hr, h0, _⟩
  rw [hp] at hr
  cases hr
  norm_num [lerp] at h0

/-- C13, as stated, fails on the program.  For `N = 11` and `position = 0.7f`, with
`startIndex = floor((N - 1) * position) = 6`, node `startIndex - 1 = 5` has displacement
`7/2`, not `startIndex * strength = 6` (the left side ends at index `6`, below the start index
`7` of the program).  For `N = 2 ^ 25 + 7` and `position = 1` no array is returned. -/
theorem C13_exact_floor_counterexample :
    (¬ ∃ result,
      String.pluck roundBinary32 11 (11744051 / 16777216) 1 (String.fresh 11) = .ok result ∧
      result[startIndex 11 (11744051 / 16777216) - 1]? =
        some { velocity := 0
               lateral_displacement := (startIndex 11 (11744051 / 16777216) : ℚ) * 1 }) ∧
    (¬ ∃ result,
      String.pluck roundBinary32 33554439 1 1 (String.fresh 33554439) = .ok result ∧
      result[0]? = some { velocity := 0, lateral_displacement := 1 }) := by
  constructor
  · rintro ⟨result, hr, h5⟩
    rw [pluck_binary32_eleven 1 _ (fresh_length 11)] at hr
    cases hr
    rw [startIndex_eleven, pluckProfile_left 11 7 1 (6 - 1) (by norm_num) (by norm_num)] at h5
    norm_num [lerp] at h5
  · rintro ⟨result, hr, _⟩
    exact pluck_binary32_large_not_ok 1 result hr

/-- C13, amended: for every `N` with `1 ≤ N ≤ 2 ^ 24 + 1` (the range in which `float(N - 1)`
is exact), position in `[0, 1]` and strength, with the start index the program computes,
`startIndex = int(float(N - 1) * position)` with the product rounded to binary32, after
`pluck` every node `i < startIndex` has the displacement `lerp(0, strength, t)` with
`t = startIndex / (startIndex - i) ≥ 1`; `t = 1` exactly at `i = 0`, `t` strictly increases
with `i` and is `startIndex` at `i = startIndex - 1`; hence node `0` has displacement
`strength`, node `startIndex - 1` has displacement `startIndex * strength`, and for
`strength ≠ 0` every node `i` with `0 < i < startIndex` has a displacement larger than
`strength` in absolute value. -/
theorem C13_left_side_extrapolation (N : Nat) (hN : 1 ≤ N) (hfloat : N ≤ 2 ^ 24 + 1)
    (position strength : ℚ) (h0 : 0 ≤ position) (h1 : position ≤ 1) (nodes : List Node)
    (hlen : nodes.length = N) :
    ∃ start : Nat, String.start_index roundBinary32 N position = (start : Int) ∧
      start ≤ N - 1 ∧
      ∃ result, String.pluck roundBinary32 N position strength nodes = .ok result ∧
        (∀ i, i < start →
          result[i]? = some
            { velocity := 0
              lateral_displacement := lerp 0 strength ((start : ℚ) / ((start : ℚ) - i)) } ∧
          1 ≤ (start : ℚ) / ((start : ℚ) - i) ∧
          ((start : ℚ) / ((start : ℚ) - i) = 1 ↔ i = 0)) ∧
        (∀ i j, i < j → j < start →
          (start : ℚ) / ((start : ℚ) - i) < (start : ℚ) / ((start : ℚ) - j)) ∧
        (1 ≤ start → (start : ℚ) / ((start : ℚ) - ((start - 1 : Nat) : ℚ)) = (start : ℚ)) ∧
        result[0]? = some { velocity := 0, lateral_displacement := strength } ∧
        (1 ≤ start →
          result[start - 1]? = some
            { velocity := 0, lateral_displacement := (start : ℚ) * strength }) ∧
        (strength ≠ 0 → ∀ i, 0 < i → i < start →
          ∃ d, result[i]? = some { velocity := 0, lateral_displacement := d } ∧
            |strength| < |d|) := by
  obtain ⟨start, hs, hle, _, hp⟩ :=
    pluck_binary32_eq_pluckProfile N hN hfloat position strength h0 h1
  have hNq : (0 : ℚ) < (N : ℚ) := by exact_mod_cast hN
  have hleft : ∀ i, i < start →
      (pluckProfile N start strength)[i]? = some
        { velocity := 0
          lateral_displacement := lerp 0 strength ((start : ℚ) / ((start : ℚ) - i)) } :=
    fun i hi => pluckProfile_left N start strength i hi (by omega)
  have hden : ∀ i, i < start → (0 : ℚ) < (start : ℚ) - i := by
    intro i hi
    have : (i : ℚ) < (start : ℚ) := by exact_mod_cast hi
    linarith
  have hlast : 1 ≤ start →
      (start : ℚ) / ((start : ℚ) - ((start - 1 : Nat) : ℚ)) = (start : ℚ) := by
    intro hs1
    rw [Nat.cast_sub hs1]
    norm_num
  refine ⟨start, hs, hle, pluckProfile N start strength, hp nodes hlen, ?_, ?_, hlast, ?_, ?_,
    ?_⟩
  · intro i hi
    have hd := hden i hi
    have hi0 : (0 : ℚ) ≤ (i : ℚ) := Nat.cast_nonneg i
    refine ⟨hleft i hi, ?_, ?_⟩
    · rw [le_div_iff₀ hd]
      linarith
    · rw [div_eq_one_iff_eq (ne_of_gt hd)]
      constructor
      · intro h
        have : (i : ℚ) = 0 := by linarith
        exact_mod_cast this
      · intro h
        rw [h]
        norm_num
  · intro i j hij hj
    have hdi := hden i (by omega)
    have hdj := hden j hj
    have hsq : (0 : ℚ) < (start : ℚ) := by
      have : 0 < start := by omega
      exact_mod_cast this
    have hijq : (i : ℚ) < (j : ℚ) := by exact_mod_cast hij
    apply div_lt_div_of_pos_left hsq hdj
    linarith
  · by_cases hz : start = 0
    · rw [pluckProfile_right N start strength 0 (by omega) (by omega), hz]
      simp [lerp, ne_of_gt hNq]
    · rw [hleft 0 (by omega)]
      have : (start : ℚ) ≠ 0 := by exact_mod_cast hz
      simp [lerp, this]
  · intro hs1
    rw [hleft (start - 1) (by omega), hlast hs1]
    simp [lerp]
  · intro hstr i hi0 hi
    refine ⟨_, hleft i hi, ?_⟩
    have hd := hden i hi
    have hiq : (0 : ℚ) < (i : ℚ) := by exact_mod_cast hi0
    have ht : 1 < (start : ℚ) / ((start : ℚ) - i) := by
      rw [lt_div_iff₀ hd]
      linarith
    simp only [lerp, sub_zero, zero_add, abs_mul]
    have hpos : 0 < |strength| := abs_pos.mpr hstr
    rw [abs_of_pos (lt_trans zero_lt_one ht)]
    calc |strength| = 1 * |strength| := (one_mul _).symm
      _ < (start : ℚ) / ((start : ℚ) - i) * |strength| := mul_lt_mul_of_pos_right ht hpos

/-- C13, amended, at `N = 11`, `pluck(0.7f, 1)`: the start index is `7`, node `0` has
displacement `1`, node `6` has displacement `7`, and the nodes `1..6` have a displacement
larger than `1`. -/
theorem C13_left_side_extrapolation_witness :
    String.start_index roundBinary32 11 (11744051 / 16777216) = 7 ∧
    ∃ result,
      String.pluck roundBinary32 11 (11744051 / 16777216) 1 (String.fresh 11) = .ok result ∧
      result[0]? = some { velocity := 0, lateral_displacement := 1 } ∧
      result[7 - 1]? = some { velocity := 0, lateral_displacement := ((7 : Nat) : ℚ) * 1 } ∧
      (∀ i, 0 < i → i < 7 →
        ∃ d, result[i]? = some { velocity := 0, lateral_displacement := d } ∧
          |(1 : ℚ)| < |d|) := by
  obtain ⟨start, hs, _, result, hr, _, _, _, hzero, hlast, hbig⟩ :=
    C13_left_side_extrapolation 11 (by norm_num) (by norm_num) (11744051 / 16777216) 1
      (by norm_num) (by norm_num) (String.fresh 11) (fresh_length 11)
  have e : start = 7 := by
    have := hs.symm.trans start_index_binary32_eleven
    exact_mod_cast this
  subst e
  exact ⟨start_index_binary32_eleven, result, hr, hzero, hlast (by norm_num),
    hbig one_ne_zero⟩

/-- C14, as stated, fails on the program.  For `N = 2 ^ 25 + 7` and `position = 1`,
`float(N - 1)` rounds up to `N + 1`, the start index is `N + 1`, and the second loop of
`pluck` reaches the out-of-range index `N`.  For `N = 11` and `position = 0.7f` the start
index is `7`, not `floor((N - 1) * position) = 6`. -/
theorem C14_out_of_range_counterexample :
    (∃ stopped, String.pluck roundBinary32 33554439 1 1 (String.fresh 33554439) =
      .error (Fault.outOfRange, stopped)) ∧
    String.start_index roundBinary32 33554439 1 = 33554439 + 1 ∧
    String.start_index roundBinary32 11 (11744051 / 16777216) = 7 ∧
    startIndex 11 (11744051 / 16777216) = 6 := by
  refine ⟨⟨_, pluck_binary32_large 1 _ (fresh_length 33554439)⟩, ?_,
    start_index_binary32_eleven, startIndex_eleven⟩
  rw [start_index_binary32_large]
  norm_num

/-- C14, amended: for every `N` with `1 ≤ N ≤ 2 ^ 24 + 1` (the range in which `float(N - 1)`
is exact) and every position in `[0, 1]`, the start index the program computes,
`startIndex = int(float(N - 1) * position)` with the product rounded to binary32, satisfies
`0 ≤ startIndex ≤ N - 1`; so every index written by either loop lies in `0..N-1`, the
denominator `N - startIndex` of the first loop is at least `1`, the denominator
`startIndex - i` of the second loop is at least `1` for every `i < startIndex`, the second
loop has no iterations when `startIndex = 0`, and `pluck` returns an array of `N` nodes: the
run stops neither at an out-of-range index nor at a division by zero. -/
theorem C14_pluck_is_safe (N : Nat) (hN : 1 ≤ N) (hfloat : N ≤ 2 ^ 24 + 1)
    (position strength : ℚ) (h0 : 0 ≤ position) (h1 : position ≤ 1) (nodes : List Node)
    (hlen : nodes.length = N) :
    ∃ start : Nat, String.start_index roundBinary32 N position = (start : Int) ∧
      (0 : Int) ≤ (start : Int) ∧ (start : Int) ≤ (N : Int) - 1 ∧
      (∀ i : Int, (start : Int) ≤ i → i < (N : Int) → 0 ≤ i ∧ i ≤ (N : Int) - 1) ∧
      (∀ i : Int, 0 ≤ i → i < (start : Int) → 0 ≤ i ∧ i ≤ (N : Int) - 1) ∧
      (1 : ℚ) ≤ (((N : Int) - (start : Int) : Int) : ℚ) ∧
      (∀ i : Int, 0 ≤ i → i < (start : Int) → (1 : ℚ) ≤ (((start : Int) - i : Int) : ℚ)) ∧
      (start = 0 →
        ∀ (body : Int → List Node → Exec (List Node)) (before : List Node),
          forRange 0 (start : Int) body before = .ok before) ∧
      ∃ result, String.pluck roundBinary32 N position strength nodes = .ok result ∧
        result.length = N := by
  obtain ⟨start, hs, hle, _, hp⟩ :=
    pluck_binary32_eq_pluckProfile N hN hfloat position strength h0 h1
  refine ⟨start, hs, by omega, by omega, ?_, ?_, ?_, ?_, ?_, pluckProfile N start strength,
    hp nodes hlen, pluckProfile_length N start strength⟩
  · intro i hi1 hi2
    omega
  · intro i hi1 hi2
    omega
  · have : (1 : Int) ≤ (N : Int) - (start : Int) := by omega
    exact_mod_cast this
  · intro i hi1 hi2
    have : (1 : Int) ≤ (start : Int) - i := by omega
    exact_mod_cast this
  · intro hz body before
    apply forRange_empty
    omega

/-- C14, amended, at `N = 11`, `pluck(0.7f, 1)` on the freshly constructed array: the start
index is `7` and an array of `11` nodes is returned. -/
theorem C14_pluck_is_safe_witness :
    String.start_index roundBinary32 11 (11744051 / 16777216) = 7 ∧
    ∃ result,
      String.pluck roundBinary32 11 (11744051 / 16777216) 1 (String.fresh 11) = .ok result ∧
      result.length = 11 := by
  obtain ⟨start, _, _, _, _, _, _, _, _, hr⟩ :=
    C14_pluck_is_safe 11 (by norm_num) (by norm_num) (11744051 / 16777216) 1 (by norm_num)
      (by norm_num) (String.fresh 11) (fresh_length 11)
  exact ⟨start_index_binary32_eleven, hr⟩

/-- C15: for every `N ≥ 1`, every array of `N` nodes and every `dt`, `step(dt)` on the
reversed array (node `i` holding the node `N - 1 - i` of the original) returns the reversal
of what `step(dt)` returns on the original array. -/
theorem C15_step_commutes_with_reversal (N : Nat) (hN : 1 ≤ N) (mass spring_constant dt : ℚ)
    (nodes : List Node) (hlen : nodes.length = N) :
    (∀ i, i < N → nodes.reverse[i]? = nodes[N - 1 - i]?) ∧
    ∃ result, String.step N mass spring_constant dt nodes = .ok result ∧
      String.step N mass spring_constant dt nodes.reverse = .ok result.reverse := by
  constructor
  · intro i hi
    rw [List.getElem?_reverse (by omega), hlen]
  · refine ⟨stepReference N mass spring_constant dt nodes,
      step_eq_stepReference N hN mass spring_constant dt nodes hlen, ?_⟩
    rw [step_eq_stepReference N hN mass spring_constant dt nodes.reverse
      (by rw [List.length_reverse]; exact hlen), stepReference_reverse N _ _ _ nodes hlen]

/-- C15 at `N = 3`, `dt = 1/1000` and the constants of the source. -/
theorem C15_step_commutes_with_reversal_witness :
    ∃ result,
      String.step 3 Node.mass String.spring_constant (1 / 1000) [⟨1, 2⟩, ⟨0, 3⟩, ⟨-1, 5⟩] =
        .ok result ∧
      String.step 3 Node.mass String.spring_constant (1 / 1000) [⟨-1, 5⟩, ⟨0, 3⟩, ⟨1, 2⟩] =
        .ok result.reverse :=
  (C15_step_commutes_with_reversal 3 (by decide) Node.mass String.spring_constant (1 / 1000)
    [⟨1, 2⟩, ⟨0, 3⟩, ⟨-1, 5⟩] rfl).2

/-- C16: for every `N ≥ 1`, position in `[0, 1]`, strength and `dt`, after `pluck` followed by
one `step(dt)` every node `i` with `startIndex < i ≤ N - 1` is as `pluck` left it: velocity
`0` and displacement `strength * (N - i) / (N - startIndex)`; for `pluck(0, s)` these are all
the nodes but node `0`. -/
theorem C16_right_ramp_is_at_rest (N : Nat) (hN : 1 ≤ N) (mass spring_constant dt : ℚ)
    (position strength : ℚ) (h0 : 0 ≤ position) (h1 : position ≤ 1) (nodes : List Node)
    (hlen : nodes.length = N) :
    ∃ plucked result, String.pluck noRounding N position strength nodes = .ok plucked ∧
      String.step N mass spring_constant dt plucked = .ok result ∧
      (∀ i, startIndex N position < i → i < N →
        result[i]? = plucked[i]? ∧
        result[i]? = some
          { velocity := 0
            lateral_displacement :=
              strength * ((N : ℚ) - i) / ((N : ℚ) - startIndex N position) }) ∧
      (position = 0 → ∀ i, 0 < i → i < N → result[i]? = plucked[i]?) := by
  have key : ∀ i, startIndex N position < i → i < N →
      (stepReference N mass spring_constant dt (pluckReference N position strength))[i]? =
        (pluckReference N position strength)[i]? := by
    intro i hs hi
    rw [stepReference_getElem? N _ _ _ _ i hi, pluckReference_getElem? N _ _ i hi,
      referenceNode_pluck_right N _ _ _ _ _ i hs hi]
  refine ⟨pluckReference N position strength,
    stepReference N mass spring_constant dt (pluckReference N position strength),
    pluck_eq_pluckReference N hN position strength h0 h1 nodes hlen,
    step_eq_stepReference N hN mass spring_constant dt _ (pluckReference_length N _ _), ?_, ?_⟩
  · intro i hs hi
    refine ⟨key i hs hi, ?_⟩
    rw [key i hs hi, pluckReference_getElem? N _ _ i hi, pluckNode, if_pos (by omega)]
    simp only [lerp]
    congr 2
    ring
  · intro hp i hi0 hi
    apply key i _ hi
    rw [hp, startIndex_zero]
    exact hi0

/-- C16 at `N = 5`, `pluck(0, 1)`, the constants of the source and `dt = 1/44100`: the first
step leaves the nodes `1..4` as they were. -/
theorem C16_right_ramp_is_at_rest_witness :
    ∃ plucked result, String.pluck noRounding 5 0 1 (String.fresh 5) = .ok plucked ∧
      String.step 5 Node.mass String.spring_constant (1 / 44100) plucked = .ok result ∧
      (∀ i, 0 < i → i < 5 → result[i]? = plucked[i]?) := by
  obtain ⟨plucked, result, hp, hr, _, hzero⟩ :=
    C16_right_ramp_is_at_rest 5 (by decide) Node.mass String.spring_constant (1 / 44100) 0 1
      le_rfl zero_le_one (String.fresh 5) rfl
  exact ⟨plucked, result, hp, hr, hzero rfl⟩

/-- C17: for every `N ≥ 1`, position in `[0, 1]`, strength `s`, scalar `a`, `dt` and number
`n` of steps, the value of `sample()` after `pluck(position, a * s)` and `n` calls `step(dt)`
is `a` times the value of `sample()` after `pluck(position, s)` and `n` calls `step(dt)`. -/
theorem C17_sample_is_linear_in_strength (N : Nat) (hN : 1 ≤ N) (mass spring_constant dt : ℚ)
    (position s a : ℚ) (h0 : 0 ≤ position) (h1 : position ≤ 1) (n : Nat) (nodes : List Node)
    (hlen : nodes.length = N) :
    ∃ plucked result x pluckedA resultA xA,
      String.pluck noRounding N position s nodes = .ok plucked ∧
      String.stepN N mass spring_constant dt n plucked = .ok result ∧
      String.sample N result = .ok (x, result) ∧
      String.pluck noRounding N position (a * s) nodes = .ok pluckedA ∧
      String.stepN N mass spring_constant dt n pluckedA = .ok resultA ∧
      String.sample N resultA = .ok (xA, resultA) ∧
      xA = a * x := by
  have hl1 := iterate_stepReference_length N mass spring_constant dt
    (pluckReference N position s) (pluckReference_length N position s) n
  have hl2 := iterate_stepReference_length N mass spring_constant dt
    (pluckReference N position (a * s)) (pluckReference_length N position (a * s)) n
  refine ⟨_, _, _, _, _, _, pluck_eq_pluckReference N hN position s h0 h1 nodes hlen,
    stepN_eq_iterate N hN mass spring_constant dt n _ (pluckReference_length N position s),
    sample_eq N hN _ hl1,
    pluck_eq_pluckReference N hN position (a * s) h0 h1 nodes hlen,
    stepN_eq_iterate N hN mass spring_constant dt n _ (pluckReference_length N position (a * s)),
    sample_eq N hN _ hl2, ?_⟩
  rw [pluckReference_scale, iterate_stepReference_scale, scaleNodes_getD]

/-- C17 at `N = 5`, `pluck(1/2, ·)` with `s = 1` and `a = 3`, the constants of the source,
`dt = 1/44100` and `100` steps. -/
theorem C17_sample_is_linear_in_strength_witness :
    ∃ plucked result x pluckedA resultA xA,
      String.pluck noRounding 5 (1 / 2) 1 (String.fresh 5) = .ok plucked ∧
      String.stepN 5 Node.mass String.spring_constant (1 / 44100) 100 plucked = .ok result ∧
      String.sample 5 result = .ok (x, result) ∧
      String.pluck noRounding 5 (1 / 2) (3 * 1) (String.fresh 5) = .ok pluckedA ∧
      String.stepN 5 Node.mass String.spring_constant (1 / 44100) 100 pluckedA = .ok resultA ∧
      String.sample 5 resultA = .ok (xA, resultA) ∧
      xA = 3 * x :=
  C17_sample_is_linear_in_strength 5 (by decide) Node.mass String.spring_constant (1 / 44100)
    (1 / 2) 1 3 (by norm_num) (by norm_num) 100 (String.fresh 5) rfl

/-- C18: for every `N ≥ 1`, every array of `N` nodes and every `dt`, with the anchors
`d[-1] = d[N] = 0`, the quantity
`E_dt(d, v) = mass * sum v[i]^2 + springConstant * sum_{j=0..N} (d[j] - d[j-1])^2
 - dt * springConstant * sum v[i] * (2*d[i] - d[i-1] - d[i+1])`
has the same value on the array `step(dt)` returns as on the array before the call (the
mass is not zero). -/
theorem C18_step_conserves_modified_energy (N : Nat) (hN : 1 ≤ N)
    (mass spring_constant dt : ℚ) (hm : mass ≠ 0) (nodes : List Node)
    (hlen : nodes.length = N) :
    ∃ result, String.step N mass spring_constant dt nodes = .ok result ∧
      modifiedEnergy N mass spring_constant dt result =
        modifiedEnergy N mass spring_constant dt nodes := by
  refine ⟨stepReference N mass spring_constant dt nodes,
    step_eq_stepReference N hN mass spring_constant dt nodes hlen, ?_⟩
  rw [modifiedEnergy_eq_energyOf N _ _ _ _ (stepReference_length N _ _ _ nodes),
    modifiedEnergy_eq_energyOf N _ _ _ nodes hlen,
    energyOf_stepReference N mass spring_constant dt hm nodes hlen]

/-- C18 at `N = 3`, `dt = 1/1000` and the constants of the source: the modified energy is
`17003001/5` before and after the step. -/
theorem C18_step_conserves_modified_energy_witness :
    ∃ result,
      String.step 3 Node.mass String.spring_constant (1 / 1000) [⟨1, 2⟩, ⟨0, 3⟩, ⟨-1, 5⟩] =
        .ok result ∧
      modifiedEnergy 3 Node.mass String.spring_constant (1 / 1000) result = 17003001 / 5 ∧
      modifiedEnergy 3 Node.mass String.spring_constant (1 / 1000)
        [⟨1, 2⟩, ⟨0, 3⟩, ⟨-1, 5⟩] = 17003001 / 5 := by
  obtain ⟨result, hr, he⟩ :=
    C18_step_conserves_modified_energy 3 (by decide) Node.mass String.spring_constant
      (1 / 1000) (by norm_num [Node.mass]) [⟨1, 2⟩, ⟨0, 3⟩, ⟨-1, 5⟩] rfl
  exact ⟨result, hr, he.trans modifiedEnergy_three_nodes, modifiedEnergy_three_nodes⟩

end StringSim
